import Mathlib

/-!
Shallow embedding of the crossword CSP solver (src/crossword.py and
src/generate.py) and verification of its specification claims.

Python strings are modelled as `List Char`, Python sets and dicts as
lists (association lists for dicts); wherever Python iterates over a set
(whose order is unspecified) the embedding fixes the scan order of the
enclosing data structure, and no theorem below depends on that
determinization except where explicitly noted.
-/

set_option maxHeartbeats 1000000
set_option linter.unusedVariables false

/-- Word direction, the constants `Variable.ACROSS` / `Variable.DOWN` of the source. -/
inductive Dir where
  | across
  | down
deriving DecidableEq, Repr

/-- `Variable.__init__` (crossword.py): a slot identified by start row `i`,
start column `j`, direction and length.  Equality and hashing are structural
on the four fields, exactly as `Variable.__eq__` / `Variable.__hash__`. -/
structure Variable where
  i : Nat
  j : Nat
  direction : Dir
  length : Nat
deriving DecidableEq, Repr

/-- The cell list computed in `Variable.__init__`:
`(i + (k if down else 0), j + (k if across else 0))` for `k in range(length)`. -/
def Variable.cells (v : Variable) : List (Nat × Nat) :=
  (List.range v.length).map fun k =>
    (v.i + (if v.direction = Dir.down then k else 0),
     v.j + (if v.direction = Dir.across then k else 0))

/-- A vocabulary word (Python `str`). -/
abbrev Word := List Char

/-- Python string indexing `w[i]` on an in-range index (out-of-range
accesses, which raise in Python, are analysed separately via `pyIdx?`). -/
def pyIdx (w : Word) (n : Nat) : Char :=
  w.getD n ' '

/-- Python string indexing `w[i]` as a fallible operation: `none` models the
`IndexError` raised on an out-of-range index. -/
def pyIdx? (w : Word) (n : Nat) : Option Char :=
  w.get? n

/-- Dictionary lookup on an association list (Python `d[k]` / `k in d`). -/
def lookupA {α : Type} : List (Variable × α) → Variable → Option α
  | [], _ => none
  | p :: rest, v => if p.1 = v then some p.2 else lookupA rest v

/-- The domain store `self.domains` of `CrosswordCreator`: a dictionary from
variables to sets of candidate words. -/
abbrev Domains := List (Variable × List Word)

/-- The set of candidate words `self.domains[v]` (empty for a missing key). -/
def domOf (d : Domains) (v : Variable) : List Word :=
  (lookupA d v).getD []

/-- Dictionary update `d[x] = s` (replaces the value at the first entry for
key `x`; dictionaries built by the solver have distinct keys). -/
def updateDom : Domains → Variable → List Word → Domains
  | [], _, _ => []
  | p :: rest, x, s => if p.1 = x then (x, s) :: rest else p :: updateDom rest x s

/-- `Crossword` (crossword.py): the variable set together with the loaded
vocabulary.  `self.overlaps` is recovered by `overlapOf` below, computed from
cell lists exactly as in `Crossword.__init__`. -/
structure Crossword where
  vars : List Variable
  words : List Word

/-- The shared cells of two variables, `set(cells1).intersection(cells2)`,
enumerated in the order of `v1.cells`. -/
def sharedCells (v1 v2 : Variable) : List (Nat × Nat) :=
  v1.cells.filter (fun c => c ∈ v2.cells)

/-- Python's `list.index(c)`: the first position of `c`. -/
def idxOf (c : Nat × Nat) : List (Nat × Nat) → Nat
  | [] => 0
  | a :: rest => if a = c then 0 else idxOf c rest + 1

/-- The overlap entry `self.overlaps[v1, v2]` computed in `Crossword.__init__`:
`None` when the cell lists are disjoint, otherwise
`(cells1.index(c), cells2.index(c))` for a shared cell `c` popped from the
intersection set.  Python's `set.pop` returns an arbitrary element; the
embedding determinizes it as the first shared cell in `v1.cells` order (the
choice is proved immaterial for grid-built crosswords, whose intersections
are singletons: see `sharedCell_unique`).  The source's table has no entry
for `v1 = v2` (the construction skips equal pairs and no caller looks such
a pair up); `overlapOf` is nevertheless total. -/
def overlapOf (v1 v2 : Variable) : Option (Nat × Nat) :=
  match sharedCells v1 v2 with
  | [] => none
  | c :: _ => some (idxOf c v1.cells, idxOf c v2.cells)

/-- `Crossword.neighbors`: the variables distinct from `var` whose overlap
with `var` is not `None` (a non-`None` overlap is a nonempty tuple, hence
truthy in the source's test). -/
def neighborsList (cw : Crossword) (var : Variable) : List Variable :=
  cw.vars.filter (fun v => v ≠ var ∧ (overlapOf v var).isSome)

/-- The grid of fillable cells (`self.structure` with `self.height`,
`self.width`), already normalized to a rectangular boolean matrix. -/
structure Grid where
  height : Nat
  width : Nat
  fill : Nat → Nat → Bool

/-- The run-extension loop of `Crossword.__init__`:
`for k in range(start, start + n): if p k: length += 1 else: break`,
returning the number of consecutive true cells starting at `start`. -/
def extLen (p : Nat → Bool) : Nat → Nat → Nat
  | _, 0 => 0
  | k, n + 1 => if p k then extLen p (k + 1) n + 1 else 0

/-- The vertical `starts_word` test of `Crossword.__init__`. -/
def startsDown (g : Grid) (i j : Nat) : Bool :=
  g.fill i j && (decide (i = 0) || !g.fill (i - 1) j)

/-- The horizontal `starts_word` test of `Crossword.__init__`. -/
def startsAcross (g : Grid) (i j : Nat) : Bool :=
  g.fill i j && (decide (j = 0) || !g.fill i (j - 1))

/-- The length of the vertical run starting at `(i, j)`. -/
def downLen (g : Grid) (i j : Nat) : Nat :=
  1 + extLen (fun k => g.fill k j) (i + 1) (g.height - (i + 1))

/-- The length of the horizontal run starting at `(i, j)`. -/
def acrossLen (g : Grid) (i j : Nat) : Nat :=
  1 + extLen (fun k => g.fill i k) (j + 1) (g.width - (j + 1))

/-- The variable set built by the scan in `Crossword.__init__`: at every cell,
a Down variable for each maximal vertical run of length at least 2, and an
Across variable for each maximal horizontal run of length at least 2 (the
source accumulates into a set; the scan never produces duplicates, so a list
in scan order is the same collection). -/
def gridVariables (g : Grid) : List Variable :=
  (List.range g.height).flatMap fun i =>
    (List.range g.width).flatMap fun j =>
      (if startsDown g i j ∧ 1 < downLen g i j then
        [⟨i, j, Dir.down, downLen g i j⟩] else [])
      ++ (if startsAcross g i j ∧ 1 < acrossLen g i j then
        [⟨i, j, Dir.across, acrossLen g i j⟩] else [])

/-- The crossword built from a grid and a vocabulary (`Crossword.__init__`). -/
def gridCrossword (g : Grid) (ws : List Word) : Crossword :=
  ⟨gridVariables g, ws⟩

/-- The domain store built in `CrosswordCreator.__init__`: every variable is
mapped to a copy of the vocabulary. -/
def initDomains (cw : Crossword) : Domains :=
  cw.vars.map fun v => (v, cw.words)

/-- `CrosswordCreator.enforce_node_consistency`: every candidate whose length
differs from its variable's length is removed from that variable's domain. -/
def enforceNodeConsistency (d : Domains) : Domains :=
  d.map fun p => (p.1, p.2.filter (fun w => w.length = p.1.length))

/-- `CrosswordCreator.revise`: with no overlap the domains are untouched and
the result is `False`; otherwise every word of `x`'s domain with no partner
in `y`'s domain agreeing at the overlap indices is removed, and the flag
reports whether anything was removed.  (The source iterates over a copy of
the set removing elements in place, which is exactly a filter.) -/
def revise (d : Domains) (x y : Variable) : Domains × Bool :=
  match overlapOf x y with
  | none => (d, false)
  | some o =>
    let dy := domOf d y
    let dx := domOf d x
    let dx2 := dx.filter fun xw => dy.any fun yw => pyIdx xw o.1 == pyIdx yw o.2
    (updateDom d x dx2, decide (dx2 ≠ dx))

/-- Sum of the domain sizes, the termination measure for AC-3. -/
def totalSize (d : Domains) : Nat :=
  (d.map fun p => p.2.length).sum

theorem lookupA_eq_some_of_domOf_ne_nil {d : Domains} {v : Variable}
    (h : domOf d v ≠ []) : lookupA d v = some (domOf d v) := by
  unfold domOf at *
  cases hl : lookupA d v with
  | none => simp [hl] at h
  | some s => simp [hl]

theorem updateDom_domOf_self (d : Domains) (x : Variable) :
    updateDom d x (domOf d x) = d := by
  induction d with
  | nil => rfl
  | cons p rest ih =>
    by_cases hp : p.1 = x
    · subst hp
      simp [updateDom, domOf, lookupA]
    · have hdom : domOf (p :: rest) x = domOf rest x := by
        simp [domOf, lookupA, hp]
      simp only [updateDom, if_neg hp, hdom, ih]

theorem totalSize_updateDom_lt {d : Domains} {x : Variable} {t : List Word}
    (hs : lookupA d x = some (domOf d x)) (ht : t.length < (domOf d x).length) :
    totalSize (updateDom d x t) < totalSize d := by
  induction d with
  | nil => simp [lookupA] at hs
  | cons p rest ih =>
    by_cases hp : p.1 = x
    · have hval : p.2 = domOf (p :: rest) x := by
        simp [domOf, lookupA, hp]
      simp only [updateDom, if_pos hp, totalSize, List.map_cons, List.sum_cons]
      have := ht
      rw [← hval] at this
      omega
    · have hdom : domOf (p :: rest) x = domOf rest x := by
        simp [domOf, lookupA, hp]
      have hlook : lookupA rest x = some (domOf rest x) := by
        rw [← hdom]
        simpa [lookupA, hp] using hs
      have hrec := ih hlook (hdom ▸ ht)
      simp only [updateDom, if_neg hp, totalSize, List.map_cons, List.sum_cons]
      have : totalSize (updateDom rest x t) < totalSize rest := hrec
      simp only [totalSize] at this
      omega

theorem revise_fst_of_not_revised {d : Domains} {x y : Variable}
    (h : (revise d x y).2 = false) : (revise d x y).1 = d := by
  unfold revise at *
  cases ho : overlapOf x y with
  | none => simp [ho]
  | some o =>
    simp only [ho, decide_eq_false_iff_not, not_not] at h ⊢
    rw [h, updateDom_domOf_self]

theorem revise_totalSize_lt {d : Domains} {x y : Variable}
    (h : (revise d x y).2 = true) : totalSize (revise d x y).1 < totalSize d := by
  unfold revise at *
  cases ho : overlapOf x y with
  | none => simp [ho] at h
  | some o =>
    simp only [ho, decide_eq_true_eq] at h ⊢
    set dx := domOf d x with hdx
    set p : Word → Bool := fun xw => (domOf d y).any fun yw => pyIdx xw o.1 == pyIdx yw o.2
      with hp
    have hsub : (dx.filter p).Sublist dx := List.filter_sublist dx
    have hne : dx.filter p ≠ dx := h
    have hlt : (dx.filter p).length < dx.length := by
      rcases Nat.lt_or_ge (dx.filter p).length dx.length with hlt | hge
      · exact hlt
      · exact absurd (hsub.eq_of_length (Nat.le_antisymm hsub.length_le hge)) hne
    have hnil : dx ≠ [] := by
      intro hnil
      rw [hnil] at hne
      simp at hne
    exact totalSize_updateDom_lt (lookupA_eq_some_of_domOf_ne_nil hnil) hlt

/-- `CrosswordCreator.ac3`: FIFO worklist of arcs; pop the front arc `(x, y)`,
revise; on a revision that empties `x`'s domain return failure at once; on a
revision leaving `x`'s domain nonempty re-enqueue `(z, x)` for every neighbor
`z` of `x` other than `y`; succeed when the worklist empties.  (The appended
arcs enumerate the neighbor set in variable-list order.) -/
def ac3 (cw : Crossword) : List (Variable × Variable) → Domains → Domains × Bool
  | [], d => (d, true)
  | (x, y) :: rest, d =>
    let r := revise d x y
    if hr : r.2 then
      if domOf r.1 x = [] then (r.1, false)
      else ac3 cw
        (rest ++ ((neighborsList cw x).filter (fun z => z ≠ y)).map fun z => (z, x)) r.1
    else ac3 cw rest r.1
termination_by arcs d => (totalSize d, arcs.length)
decreasing_by
  · exact Prod.Lex.left _ _ (revise_totalSize_lt hr)
  · rw [revise_fst_of_not_revised (Bool.of_not_eq_true hr)]
    exact Prod.Lex.right _ (Nat.lt_succ_self _)

/-- `CrosswordCreator.ac3` with its default argument `arcs=None`: the initial
worklist holds every arc `(x, y)` with `y` a neighbor of `x`. -/
def allArcs (cw : Crossword) : List (Variable × Variable) :=
  cw.vars.flatMap fun x => (neighborsList cw x).map fun y => (x, y)

/-- `ac3()` as called by `solve` (no caller-supplied arcs). -/
def ac3Default (cw : Crossword) (d : Domains) : Domains × Bool :=
  ac3 cw (allArcs cw) d

/-- A partial assignment of words to variables (a Python dict in insertion
order). -/
abbrev Assignment := List (Variable × Word)

/-- `CrosswordCreator.assignment_complete`. -/
def assignmentCompleteB (cw : Crossword) (a : Assignment) : Bool :=
  cw.vars.all fun v => (lookupA a v).isSome

/-- `CrosswordCreator.consistent`: distinct values, correct lengths, and
agreement of every assigned pair of neighbors at their overlap indices.
(`len(set(values)) < len(assignment)` is rendered through `dedup`; the
`none` overlap branch is unreachable because neighbors always have a
non-`None` overlap, and is rendered as `true`, i.e. no constraint.) -/
def consistentB (cw : Crossword) (a : Assignment) : Bool :=
  !decide ((a.map Prod.snd).dedup.length < a.length)
  && a.all fun p =>
      decide (p.2.length = p.1.length)
      && (neighborsList cw p.1).all fun nb =>
          match lookupA a nb with
          | none => true
          | some nw =>
            match overlapOf p.1 nb with
            | some o => pyIdx p.2 o.1 == pyIdx nw o.2
            | none => true

/-- The inner `count_conflicts` of `CrosswordCreator.order_domain_values`:
for every unassigned neighbor, the number of words of its domain that clash
with `w` at the overlap indices.  (The unreachable `none` overlap branch
contributes nothing.) -/
def countConflicts (cw : Crossword) (d : Domains) (a : Assignment)
    (var : Variable) (w : Word) : Nat :=
  (((neighborsList cw var).filter fun nb => lookupA a nb = none).map fun nb =>
      match overlapOf var nb with
      | some o => (domOf d nb).countP fun nw => pyIdx nw o.2 != pyIdx w o.1
      | none => 0).sum

/-- `CrosswordCreator.order_domain_values`: the domain of `var` sorted by
ascending conflict count (Python's `sorted` is stable; a stable insertion
sort models it). -/
def orderDomainValues (cw : Crossword) (d : Domains) (a : Assignment)
    (var : Variable) : List Word :=
  List.insertionSort
    (fun w1 w2 => countConflicts cw d a var w1 ≤ countConflicts cw d a var w2)
    (domOf d var)

/-- Strict lexicographic comparison of `(len(domain), -len(neighbors))` keys,
Python's tuple `<`. -/
def lexLt (p q : Nat × Int) : Prop :=
  p.1 < q.1 ∨ (p.1 = q.1 ∧ p.2 < q.2)

instance : DecidableRel lexLt := fun _ _ => by
  unfold lexLt
  infer_instance

/-- Non-strict lexicographic comparison of MRV keys. -/
def lexLe (p q : Nat × Int) : Prop :=
  p.1 < q.1 ∨ (p.1 = q.1 ∧ p.2 ≤ q.2)

/-- The MRV key `(len(self.domains[v]), -len(neighbors(v)))`. -/
def mrvKey (cw : Crossword) (d : Domains) (v : Variable) : Nat × Int :=
  ((domOf d v).length, -((neighborsList cw v).length : Int))

/-- Python's `min(x :: xs, key)`: the first element attaining the minimal
key. -/
def minBy (key : Variable → Nat × Int) (x : Variable) (xs : List Variable) :
    Variable :=
  xs.foldl (fun best v => if lexLt (key v) (key best) then v else best) x

/-- `CrosswordCreator.select_unassigned_variable` (`none` models the
`ValueError` of `min` on an empty sequence, never reached from `solve`). -/
def selectUnassigned (cw : Crossword) (d : Domains) (a : Assignment) :
    Option Variable :=
  match cw.vars.filter (fun v => lookupA a v = none) with
  | [] => none
  | u :: us => some (minBy (mrvKey cw d) u us)

/-- First `some` result of `f` along a list: the `for value in ...` loop of
`backtrack`, which returns the first successful recursive result. -/
def firstSome {α β : Type} (f : α → Option β) : List α → Option β
  | [] => none
  | x :: xs =>
    match f x with
    | some b => some b
    | none => firstSome f xs

/-- `CrosswordCreator.backtrack`, with an explicit recursion-depth fuel.
Every recursive call extends the assignment with a fresh variable of the
puzzle, so from `solve`'s entry (`assignment = {}`) the recursion depth is
bounded by the variable count and the fuel `cw.vars.length + 1` used by
`backtrack` below is never exhausted: the selected variable is always
unassigned, and an assignment covering all variables is complete. -/
def backtrackFuel (cw : Crossword) (d : Domains) : Nat → Assignment → Option Assignment
  | 0, _ => none
  | fuel + 1, a =>
    if assignmentCompleteB cw a then some a
    else
      match selectUnassigned cw d a with
      | none => none
      | some var =>
        firstSome
          (fun w =>
            let a2 := a ++ [(var, w)]
            if consistentB cw a2 then backtrackFuel cw d fuel a2 else none)
          (orderDomainValues cw d a var)

/-- `CrosswordCreator.backtrack` at adequate fuel. -/
def backtrack (cw : Crossword) (d : Domains) (a : Assignment) : Option Assignment :=
  backtrackFuel cw d (cw.vars.length + 1) a

/-- `CrosswordCreator.solve`: node consistency, then AC-3 over all arcs with
its Boolean result discarded (the source ignores the return value of
`self.ac3()`), then backtracking from the empty assignment. -/
def solve (cw : Crossword) : Option Assignment :=
  let d1 := enforceNodeConsistency (initDomains cw)
  let d2 := (ac3 cw (allArcs cw) d1).1
  backtrack cw d2 []

/-- `solve` instrumented with a flag recording whether the backtracking
search was entered: the source calls `self.backtrack(dict())` on its one
execution path, unconditionally, so the flag is `true`. -/
def solveT (cw : Crossword) : Option Assignment × Bool :=
  let d1 := enforceNodeConsistency (initDomains cw)
  let d2 := (ac3 cw (allArcs cw) d1).1
  (backtrack cw d2 [], true)

/-!  Store-passing renderings of the search phase.  The source's search
methods read `self.domains` but never write it; translating them with the
domain store threaded through every call makes that frame property a
statement rather than a convention. -/

/-- `order_domain_values` with the domain store threaded: a pure ranking,
the store is only read. -/
def orderDomainValuesS (cw : Crossword) (d : Domains) (a : Assignment)
    (var : Variable) : List Word × Domains :=
  (List.insertionSort
    (fun w1 w2 => countConflicts cw d a var w1 ≤ countConflicts cw d a var w2)
    (domOf d var), d)

/-- The `for value in order_domain_values(...)` loop of `backtrack` with the
domain store threaded through the recursive calls. -/
def tryValuesS (cw : Crossword)
    (rec : Domains → Assignment → Option Assignment × Domains)
    (a : Assignment) (var : Variable) :
    List Word → Domains → Option Assignment × Domains
  | [], d => (none, d)
  | w :: ws, d =>
    let a2 := a ++ [(var, w)]
    if consistentB cw a2 then
      match rec d a2 with
      | (some r, d2) => (some r, d2)
      | (none, d2) => tryValuesS cw rec a var ws d2
    else tryValuesS cw rec a var ws d

/-- `backtrack` with the domain store threaded through every call. -/
def backtrackS (cw : Crossword) :
    Nat → Domains → Assignment → Option Assignment × Domains
  | 0, d, _ => (none, d)
  | fuel + 1, d, a =>
    if assignmentCompleteB cw a then (some a, d)
    else
      match selectUnassigned cw d a with
      | none => (none, d)
      | some var =>
        tryValuesS cw (fun d2 a2 => backtrackS cw fuel d2 a2) a var
          (orderDomainValuesS cw d a var).1 d

/-!  Fallible renderings of the indexing done by `revise`,
`order_domain_values` and `consistent`, for the in-bounds safety claim.
Python evaluates its generator expressions lazily and short-circuits
`any`/`return False`; these versions are strict (they demand every index
of the traversal to be in range), which is a worst case over the
unspecified set-iteration orders of the source, so their success implies
the success of every evaluation order. -/

/-- `any(x_word[o1] == y_word[o2] for y_word in dy)` with fallible
indexing (`cx` is the already-looked-up `x_word[o1]`). -/
def anyMatchF (cx : Option Char) (o2 : Nat) : List Word → Option Bool
  | [] => some false
  | yw :: rest => do
    let c1 ← cx
    let c2 ← pyIdx? yw o2
    let b ← anyMatchF cx o2 rest
    pure (c1 == c2 || b)

/-- The domain filtering of `revise` with fallible indexing. -/
def filterKeepF (dy : List Word) (o1 o2 : Nat) : List Word → Option (List Word)
  | [] => some []
  | xw :: rest => do
    let k ← anyMatchF (pyIdx? xw o1) o2 dy
    let rest2 ← filterKeepF dy o1 o2 rest
    pure (if k then xw :: rest2 else rest2)

/-- `revise` with fallible indexing: `none` models an `IndexError`. -/
def reviseF (d : Domains) (x y : Variable) : Option (Domains × Bool) :=
  match overlapOf x y with
  | none => some (d, false)
  | some o => do
    let dx2 ← filterKeepF (domOf d y) o.1 o.2 (domOf d x)
    pure (updateDom d x dx2, decide (dx2 ≠ domOf d x))

/-- `sum(1 for word in dnb if word[o2] != w[o1])` with fallible indexing. -/
def conflictCountF (w : Word) (o1 o2 : Nat) : List Word → Option Nat
  | [] => some 0
  | nw :: rest => do
    let c1 ← pyIdx? nw o2
    let c2 ← pyIdx? w o1
    let n ← conflictCountF w o1 o2 rest
    pure ((if c1 != c2 then 1 else 0) + n)

/-- The loop of `count_conflicts` over the unassigned neighbors with
fallible indexing. -/
def sumConflictsF (d : Domains) (var : Variable) (w : Word) :
    List Variable → Option Nat
  | [] => some 0
  | nb :: rest => do
    let c ←
      match overlapOf var nb with
      | some o => conflictCountF w o.1 o.2 (domOf d nb)
      | none => some 0
    let n ← sumConflictsF d var w rest
    pure (c + n)

/-- `count_conflicts` (the indexing core of `order_domain_values`) with
fallible indexing. -/
def countConflictsF (cw : Crossword) (d : Domains) (a : Assignment)
    (var : Variable) (w : Word) : Option Nat :=
  sumConflictsF d var w
    ((neighborsList cw var).filter fun nb => lookupA a nb = none)

/-- The neighbor-agreement loop of `consistent` with fallible indexing. -/
def nbCheckF (a : Assignment) (v : Variable) (w : Word) :
    List Variable → Option Bool
  | [] => some true
  | nb :: rest => do
    let b1 ←
      match lookupA a nb with
      | none => some true
      | some nw =>
        match overlapOf v nb with
        | some o => do
          let c1 ← pyIdx? w o.1
          let c2 ← pyIdx? nw o.2
          pure (c1 == c2)
        | none => some true
    let b2 ← nbCheckF a v w rest
    pure (b1 && b2)

/-- The per-item loop of `consistent` with fallible indexing. -/
def itemsCheckF (cw : Crossword) (a : Assignment) : Assignment → Option Bool
  | [] => some true
  | p :: rest => do
    let nb ← nbCheckF a p.1 p.2 (neighborsList cw p.1)
    let r ← itemsCheckF cw a rest
    pure ((decide (p.2.length = p.1.length) && nb) && r)

/-- `consistent` with fallible indexing: `none` models an `IndexError`. -/
def consistentF (cw : Crossword) (a : Assignment) : Option Bool :=
  if (a.map Prod.snd).dedup.length < a.length then some false
  else itemsCheckF cw a a

/-!  Concrete instances used by the witnesses. -/

/-- A 1 × 3 grid whose only row is fully fillable: one Across slot. -/
def gW1 : Grid := ⟨1, 3, fun _ _ => true⟩

/-- The crossword of `gW1` with vocabulary `{"CAT"}`. -/
def cwW1 : Crossword := gridCrossword gW1 [['C', 'A', 'T']]

/-- The single slot of `gW1`. -/
def vW1 : Variable := ⟨0, 0, Dir.across, 3⟩

/-- A 3 × 2 grid: a Down slot of length 3 crossing an Across slot of
length 2 at their first cells. -/
def gW2 : Grid := ⟨3, 2, fun i j => decide ((i = 0 ∧ j ≤ 1) ∨ j = 0)⟩

/-- The crossword of `gW2` with vocabulary `{"AB", "XYZ"}`: the two slots
disagree at the shared cell, so AC-3 wipes out a domain. -/
def cwW2 : Crossword := gridCrossword gW2 [['A', 'B'], ['X', 'Y', 'Z']]

/-- The Down slot of `gW2`. -/
def vDW2 : Variable := ⟨0, 0, Dir.down, 3⟩

/-- The Across slot of `gW2`. -/
def vAW2 : Variable := ⟨0, 0, Dir.across, 2⟩

/-- The domain store of `cwW2` after node consistency. -/
def dW2 : Domains := enforceNodeConsistency (initDomains cwW2)

/-- The domain store of `cwW2` after AC-3 has wiped out the Down slot's
domain. -/
def dEmptyW2 : Domains := [(vDW2, []), (vAW2, [['A', 'B']])]

/-- The number of variables of the puzzle not yet assigned: a bound on the
remaining recursion depth of `backtrack`. -/
def unassignedCount (cw : Crossword) (a : Assignment) : Nat :=
  (cw.vars.filter fun v => lookupA a v = none).length

/-!  Helper lemmas about cell lists. -/

theorem cells_length (v : Variable) : v.cells.length = v.length := by
  simp [Variable.cells]

theorem cells_getD (v : Variable) (k : Nat) (hk : k < v.length) :
    v.cells.getD k (0, 0) =
      (v.i + (if v.direction = Dir.down then k else 0),
       v.j + (if v.direction = Dir.across then k else 0)) := by
  unfold Variable.cells
  rw [List.getD_eq_getElem?_getD, List.getElem?_map, List.getElem?_range hk]
  rfl

theorem mem_cells (v : Variable) (c : Nat × Nat) :
    c ∈ v.cells ↔ ∃ k, k < v.length ∧
      c = (v.i + (if v.direction = Dir.down then k else 0),
           v.j + (if v.direction = Dir.across then k else 0)) := by
  unfold Variable.cells
  simp only [List.mem_map, List.mem_range]
  constructor
  · rintro ⟨k, hk, rfl⟩
    exact ⟨k, hk, rfl⟩
  · rintro ⟨k, hk, rfl⟩
    exact ⟨k, hk, rfl⟩

theorem mem_cells_down {v : Variable} (hd : v.direction = Dir.down)
    (c : Nat × Nat) :
    c ∈ v.cells ↔ c.2 = v.j ∧ v.i ≤ c.1 ∧ c.1 < v.i + v.length := by
  rw [mem_cells]
  simp only [hd]
  constructor
  · rintro ⟨k, hk, rfl⟩
    simp
    omega
  · rintro ⟨h2, hle, hlt⟩
    refine ⟨c.1 - v.i, by omega, ?_⟩
    obtain ⟨c1, c2⟩ := c
    simp_all


theorem mem_cells_across {v : Variable} (hd : v.direction = Dir.across)
    (c : Nat × Nat) :
    c ∈ v.cells ↔ c.1 = v.i ∧ v.j ≤ c.2 ∧ c.2 < v.j + v.length := by
  rw [mem_cells]
  simp only [hd]
  constructor
  · rintro ⟨k, hk, rfl⟩
    simp
    omega
  · rintro ⟨h1, hle, hlt⟩
    refine ⟨c.2 - v.j, by omega, ?_⟩
    obtain ⟨c1, c2⟩ := c
    simp_all

theorem cells_nodup (v : Variable) : v.cells.Nodup := by
  unfold Variable.cells
  apply List.Nodup.map _ (List.nodup_range _)
  intro a b hab
  cases hv : v.direction <;> simp [hv] at hab <;> omega

/-!  Helper lemmas about dictionaries. -/

theorem lookupA_updateDom_ne {d : Domains} {x z : Variable} {s : List Word}
    (hzx : z ≠ x) : lookupA (updateDom d x s) z = lookupA d z := by
  induction d with
  | nil => rfl
  | cons p rest ih =>
    by_cases hp : p.1 = x
    · have hpz : ¬p.1 = z := by
        rw [hp]
        exact fun h => hzx h.symm
      simp [updateDom, lookupA, hp, hpz, Ne.symm hzx]
    · by_cases hz : p.1 = z
      · simp [updateDom, lookupA, hp, hz, hzx]
      · simp [updateDom, lookupA, hp, hz, ih]

theorem domOf_updateDom_filter (d : Domains) (x : Variable)
    (p : Word → Bool) :
    domOf (updateDom d x ((domOf d x).filter p)) x = (domOf d x).filter p := by
  induction d with
  | nil =>
    simp [updateDom, domOf, lookupA]
  | cons q rest ih =>
    by_cases hq : q.1 = x
    · subst hq
      simp [updateDom, domOf, lookupA]
    · have hdom : domOf (q :: rest) x = domOf rest x := by
        simp [domOf, lookupA, hq]
      rw [hdom]
      have : updateDom (q :: rest) x ((domOf rest x).filter p) =
          q :: updateDom rest x ((domOf rest x).filter p) := by
        simp [updateDom, hq]
      rw [this]
      have hdom2 : domOf (q :: updateDom rest x ((domOf rest x).filter p)) x =
          domOf (updateDom rest x ((domOf rest x).filter p)) x := by
        simp [domOf, lookupA, hq]
      rw [hdom2, ih]

theorem domOf_enforce (d : Domains) (v : Variable) :
    domOf (enforceNodeConsistency d) v =
      (domOf d v).filter fun w => w.length = v.length := by
  induction d with
  | nil => rfl
  | cons p rest ih =>
    by_cases hp : p.1 = v
    · subst hp
      simp [enforceNodeConsistency, domOf, lookupA]
    · have h1 : domOf (p :: rest) v = domOf rest v := by
        simp [domOf, lookupA, hp]
      have h2 : domOf (enforceNodeConsistency (p :: rest)) v =
          domOf (enforceNodeConsistency rest) v := by
        simp [enforceNodeConsistency, domOf, lookupA, hp]
      rw [h1, h2, ih]

/-- **C8** (confirmed).  For every slot constructed with start row `i`, start
column `j`, direction and length `L`, the derived cell sequence has exactly
`L` entries, entry `k` equals
`(i + k·[direction = Down], j + k·[direction = Across])` for `k < L`, and
consecutive cells differ by exactly one row for Down slots and exactly one
column for Across slots. -/
theorem variable_cells_spec (i j L : Nat) (dir : Dir) :
    (Variable.mk i j dir L).cells.length = L
    ∧ (∀ k, k < L → (Variable.mk i j dir L).cells.getD k (0, 0) =
        (i + (if dir = Dir.down then k else 0),
         j + (if dir = Dir.across then k else 0)))
    ∧ (∀ k, k + 1 < L → dir = Dir.down →
        ((Variable.mk i j dir L).cells.getD (k + 1) (0, 0)).1
          = ((Variable.mk i j dir L).cells.getD k (0, 0)).1 + 1
        ∧ ((Variable.mk i j dir L).cells.getD (k + 1) (0, 0)).2
          = ((Variable.mk i j dir L).cells.getD k (0, 0)).2)
    ∧ (∀ k, k + 1 < L → dir = Dir.across →
        ((Variable.mk i j dir L).cells.getD (k + 1) (0, 0)).2
          = ((Variable.mk i j dir L).cells.getD k (0, 0)).2 + 1
        ∧ ((Variable.mk i j dir L).cells.getD (k + 1) (0, 0)).1
          = ((Variable.mk i j dir L).cells.getD k (0, 0)).1) := by
  refine ⟨cells_length _, ?_, ?_, ?_⟩
  · intro k hk
    exact cells_getD ⟨i, j, dir, L⟩ k hk
  · intro k hk hd
    rw [cells_getD _ _ (by exact hk), cells_getD _ _ (by exact Nat.lt_of_succ_lt hk)]
    subst hd
    constructor <;> simp <;> omega
  · intro k hk hd
    rw [cells_getD _ _ (by exact hk), cells_getD _ _ (by exact Nat.lt_of_succ_lt hk)]
    subst hd
    constructor <;> simp <;> omega

/-- Witness for `variable_cells_spec` at the slot `(0, 0) down : 3` and
index 1. -/
theorem variable_cells_spec_witness :
    1 + 1 < 3 ∧ Dir.down = Dir.down
    ∧ ((Variable.mk 0 0 Dir.down 3).cells.getD (1 + 1) (0, 0)).1
        = ((Variable.mk 0 0 Dir.down 3).cells.getD 1 (0, 0)).1 + 1
    ∧ ((Variable.mk 0 0 Dir.down 3).cells.getD (1 + 1) (0, 0)).2
        = ((Variable.mk 0 0 Dir.down 3).cells.getD 1 (0, 0)).2 :=
  ⟨by decide, rfl,
    ((variable_cells_spec 0 0 3 Dir.down).2.2.1 1 (by decide) rfl).1,
    ((variable_cells_spec 0 0 3 Dir.down).2.2.1 1 (by decide) rfl).2⟩

/-- **C7** (confirmed).  `enforce_node_consistency` removes from each slot's
domain exactly the candidates whose length differs from the slot's length —
a word survives in `v`'s domain iff it was there and has length `v.length` —
and modifies nothing else (the key structure of the store is untouched). -/
theorem enforceNodeConsistency_spec (d : Domains) :
    (∀ v w, w ∈ domOf (enforceNodeConsistency d) v ↔
        w ∈ domOf d v ∧ w.length = v.length)
    ∧ (enforceNodeConsistency d).map Prod.fst = d.map Prod.fst := by
  constructor
  · intro v w
    rw [domOf_enforce]
    simp [List.mem_filter]
  · simp [enforceNodeConsistency]

/-- **C4** (confirmed).  `revise(x, y)` is a no-op returning `False` when the
overlap is `None`; otherwise it removes from `x`'s domain exactly the words
with no agreeing partner in `y`'s domain at the overlap indices, leaves every
other domain unchanged, and returns `True` iff something was removed. -/
theorem revise_spec (d : Domains) (x y : Variable) :
    (overlapOf x y = none → revise d x y = (d, false))
    ∧ ∀ o, overlapOf x y = some o →
        (∀ w, w ∈ domOf (revise d x y).1 x ↔
            w ∈ domOf d x ∧ ∃ v ∈ domOf d y, pyIdx w o.1 = pyIdx v o.2)
        ∧ (∀ z, z ≠ x → domOf (revise d x y).1 z = domOf d z)
        ∧ ((revise d x y).2 = true ↔
            ∃ w ∈ domOf d x, ¬∃ v ∈ domOf d y, pyIdx w o.1 = pyIdx v o.2) := by
  constructor
  · intro h
    unfold revise
    rw [h]
  · intro o ho
    unfold revise
    rw [ho]
    simp only
    refine ⟨?_, ?_, ?_⟩
    · intro w
      rw [domOf_updateDom_filter, List.mem_filter]
      simp [List.any_eq_true]
    · intro z hz
      unfold domOf
      rw [lookupA_updateDom_ne hz]
    · rw [decide_eq_true_eq]
      constructor
      · intro hne
        have hnall : ¬ ∀ w ∈ domOf d x,
            ((domOf d y).any fun yw => pyIdx w o.1 == pyIdx yw o.2) = true :=
          fun hall => hne (List.filter_eq_self.mpr hall)
        push_neg at hnall
        obtain ⟨w, hw, hpw⟩ := hnall
        refine ⟨w, hw, ?_⟩
        simpa [List.any_eq_true] using hpw
      · rintro ⟨w, hw, hnw⟩ heq
        have := List.filter_eq_self.mp heq w hw
        simp [List.any_eq_true] at this
        obtain ⟨v, hv, hvw⟩ := this
        exact hnw ⟨v, hv, hvw⟩

/-- Witness for `revise_spec`: the crossing slots of `gW2`, whose overlap is
`(0, 0)`. -/
theorem revise_spec_witness :
    overlapOf vDW2 vAW2 = some (0, 0)
    ∧ (∀ w, w ∈ domOf (revise dW2 vDW2 vAW2).1 vDW2 ↔
        w ∈ domOf dW2 vDW2 ∧ ∃ v ∈ domOf dW2 vAW2, pyIdx w 0 = pyIdx v 0) :=
  ⟨by decide, ((revise_spec dW2 vDW2 vAW2).2 (0, 0) (by decide)).1⟩

/-!  Unfolding equations of the AC-3 worklist loop. -/

theorem ac3_nil (cw : Crossword) (d : Domains) : ac3 cw [] d = (d, true) := by
  unfold ac3
  rfl

theorem ac3_cons (cw : Crossword) (x y : Variable)
    (rest : List (Variable × Variable)) (d : Domains) :
    ac3 cw ((x, y) :: rest) d =
      if (revise d x y).2 then
        if domOf (revise d x y).1 x = [] then ((revise d x y).1, false)
        else ac3 cw
          (rest ++ ((neighborsList cw x).filter (fun z => z ≠ y)).map fun z => (z, x))
          (revise d x y).1
      else ac3 cw rest (revise d x y).1 := by
  conv_lhs => unfold ac3
  by_cases hr : (revise d x y).2 = true
  · simp [hr]
  · simp [hr]

/-- **C3** (confirmed).  `ac3` with no caller-supplied arcs starts from the
worklist of every ordered pair `(x, y)` with `y` a neighbor of `x`; it pops
the front arc and revises; a revision that empties `x`'s domain makes it
return failure at once, a revision leaving the domain nonempty re-enqueues
`(z, x)` for every neighbor `z ≠ y` of `x`; it returns success exactly when
the worklist empties. -/
theorem ac3_characterization (cw : Crossword) (d : Domains) :
    (ac3Default cw d = ac3 cw (allArcs cw) d)
    ∧ (∀ p, p ∈ allArcs cw ↔ p.1 ∈ cw.vars ∧ p.2 ∈ neighborsList cw p.1)
    ∧ (ac3 cw [] d = (d, true))
    ∧ (∀ x y rest,
        ac3 cw ((x, y) :: rest) d =
          if (revise d x y).2 then
            if domOf (revise d x y).1 x = [] then ((revise d x y).1, false)
            else ac3 cw
              (rest ++ ((neighborsList cw x).filter (fun z => z ≠ y)).map fun z => (z, x))
              (revise d x y).1
          else ac3 cw rest (revise d x y).1) := by
  refine ⟨rfl, ?_, ac3_nil cw d, fun x y rest => ac3_cons cw x y rest d⟩
  intro p
  constructor
  · intro hp
    simp only [allArcs, List.mem_flatMap, List.mem_map] at hp
    obtain ⟨x, hx, y, hy, rfl⟩ := hp
    exact ⟨hx, hy⟩
  · intro h
    simp only [allArcs, List.mem_flatMap, List.mem_map]
    exact ⟨p.1, h.1, p.2, h.2, rfl⟩

/-!  The search phase never writes the domain store. -/

theorem tryS_domains (cw : Crossword)
    (rec : Domains → Assignment → Option Assignment × Domains)
    (a : Assignment) (var : Variable)
    (hrec : ∀ d2 a2, (rec d2 a2).2 = d2) :
    ∀ ws d, (tryValuesS cw rec a var ws d).2 = d := by
  intro ws
  induction ws with
  | nil => intro d; rfl
  | cons w ws ih =>
    intro d
    simp only [tryValuesS]
    by_cases hc : consistentB cw (a ++ [(var, w)]) = true
    · rw [if_pos hc]
      cases hrw : rec d (a ++ [(var, w)]) with
      | mk o d2 =>
        have hd2 : d2 = d := by
          have h2 := hrec d (a ++ [(var, w)])
          rw [hrw] at h2
          exact h2
        cases o with
        | some r =>
          simp only [hrw]
          exact hd2
        | none =>
          simp only [hrw]
          rw [hd2]
          exact ih d
    · rw [if_neg hc]
      exact ih d

theorem backtrackS_domains (cw : Crossword) :
    ∀ fuel d a, (backtrackS cw fuel d a).2 = d := by
  intro fuel
  induction fuel with
  | zero => intro d a; rfl
  | succ fuel ih =>
    intro d a
    simp only [backtrackS]
    by_cases hc : assignmentCompleteB cw a = true
    · rw [if_pos hc]
    · rw [if_neg hc]
      cases hsel : selectUnassigned cw d a with
      | none => rfl
      | some var => exact tryS_domains cw _ a var (fun d2 a2 => ih d2 a2) _ d

theorem tryS_fst (cw : Crossword)
    (rec : Domains → Assignment → Option Assignment × Domains)
    (a : Assignment) (var : Variable)
    (hrecd : ∀ d2 a2, (rec d2 a2).2 = d2) :
    ∀ ws d, (tryValuesS cw rec a var ws d).1
      = firstSome (fun w => if consistentB cw (a ++ [(var, w)]) = true
          then (rec d (a ++ [(var, w)])).1 else none) ws := by
  intro ws
  induction ws with
  | nil => intro d; rfl
  | cons w ws ih =>
    intro d
    rw [tryValuesS, firstSome]
    by_cases hc : consistentB cw (a ++ [(var, w)]) = true
    · rw [if_pos hc]
      simp only [if_pos hc]
      cases hrw : rec d (a ++ [(var, w)]) with
      | mk o d2 =>
        have hd2 : d2 = d := by
          have h2 := hrecd d (a ++ [(var, w)])
          rw [hrw] at h2
          exact h2
        cases o with
        | some r => simp [hrw]
        | none =>
          simp only [hrw]
          rw [hd2]
          exact ih d
    · rw [if_neg hc]
      simp only [if_neg hc]
      exact ih d

theorem firstSome_eq_some {α β : Type} {f : α → Option β} {l : List α} {b : β}
    (h : firstSome f l = some b) : ∃ x ∈ l, f x = some b := by
  induction l with
  | nil => simp [firstSome] at h
  | cons x xs ih =>
    rw [firstSome] at h
    cases hf : f x with
    | some b2 =>
      rw [hf] at h
      have h2 : some b2 = some b := h
      cases h2
      exact ⟨x, List.mem_cons_self x xs, hf⟩
    | none =>
      rw [hf] at h
      have h2 : firstSome f xs = some b := h
      obtain ⟨z, hz, hfz⟩ := ih h2
      exact ⟨z, List.mem_cons_of_mem x hz, hfz⟩

theorem backtrackFuel_prefix (cw : Crossword) :
    ∀ fuel d a res, backtrackFuel cw d fuel a = some res → a <+: res := by
  intro fuel
  induction fuel with
  | zero => intro d a res h; exact absurd h (by simp [backtrackFuel])
  | succ fuel ih =>
    intro d a res h
    rw [backtrackFuel] at h
    by_cases hc : assignmentCompleteB cw a = true
    · rw [if_pos hc] at h
      cases h
      exact List.prefix_refl a
    · rw [if_neg hc] at h
      cases hsel : selectUnassigned cw d a with
      | none => rw [hsel] at h; cases h
      | some var =>
        rw [hsel] at h
        obtain ⟨w, hw, hfw⟩ := firstSome_eq_some h
        by_cases hcons : consistentB cw (a ++ [(var, w)]) = true
        · rw [if_pos hcons] at hfw
          exact List.IsPrefix.trans (List.prefix_append a [(var, w)]) (ih d _ res hfw)
        · rw [if_neg hcons] at hfw
          cases hfw

/-!  Properties of the run scan. -/

theorem extLen_le (p : Nat → Bool) : ∀ n k, extLen p k n ≤ n := by
  intro n
  induction n with
  | zero => intro k; simp [extLen]
  | succ n ih =>
    intro k
    rw [extLen]
    by_cases hp : p k = true
    · rw [if_pos hp]
      exact Nat.succ_le_succ (ih (k + 1))
    · rw [if_neg hp]
      exact Nat.zero_le _

theorem extLen_true (p : Nat → Bool) : ∀ n k m, m < extLen p k n → p (k + m) = true := by
  intro n
  induction n with
  | zero => intro k m hm; simp [extLen] at hm
  | succ n ih =>
    intro k m hm
    rw [extLen] at hm
    by_cases hp : p k = true
    · rw [if_pos hp] at hm
      cases m with
      | zero => simpa using hp
      | succ m =>
        have := ih (k + 1) m (by omega)
        have harith : k + 1 + m = k + (m + 1) := by omega
        rwa [harith] at this
    · rw [if_neg hp] at hm
      omega

theorem extLen_stop (p : Nat → Bool) :
    ∀ n k, extLen p k n < n → p (k + extLen p k n) = false := by
  intro n
  induction n with
  | zero => intro k h; omega
  | succ n ih =>
    intro k h
    rw [extLen] at h ⊢
    by_cases hp : p k = true
    · rw [if_pos hp] at h ⊢
      have := ih (k + 1) (by omega)
      have harith : k + 1 + extLen p (k + 1) n = k + (extLen p (k + 1) n + 1) := by omega
      rwa [harith] at this
    · rw [if_neg hp] at h ⊢
      simpa using hp

/-!  Membership in the scanned variable set, and the geometric facts the
scan guarantees about every recorded slot. -/

theorem mem_gridVariables (g : Grid) (v : Variable) :
    v ∈ gridVariables g ↔
      v.i < g.height ∧ v.j < g.width ∧
      ((v.direction = Dir.down ∧ startsDown g v.i v.j = true
          ∧ 1 < downLen g v.i v.j ∧ v.length = downLen g v.i v.j)
       ∨ (v.direction = Dir.across ∧ startsAcross g v.i v.j = true
          ∧ 1 < acrossLen g v.i v.j ∧ v.length = acrossLen g v.i v.j)) := by
  unfold gridVariables
  simp only [List.mem_flatMap, List.mem_range, List.mem_append]
  constructor
  · rintro ⟨i, hi, j, hj, hmem | hmem⟩
    · by_cases hd : startsDown g i j ∧ 1 < downLen g i j
      · rw [if_pos hd] at hmem
        simp only [List.mem_singleton] at hmem
        subst hmem
        exact ⟨hi, hj, Or.inl ⟨rfl, hd.1, hd.2, rfl⟩⟩
      · rw [if_neg hd] at hmem
        simp at hmem
    · by_cases hd : startsAcross g i j ∧ 1 < acrossLen g i j
      · rw [if_pos hd] at hmem
        simp only [List.mem_singleton] at hmem
        subst hmem
        exact ⟨hi, hj, Or.inr ⟨rfl, hd.1, hd.2, rfl⟩⟩
      · rw [if_neg hd] at hmem
        simp at hmem
  · rintro ⟨hi, hj, ⟨hdir, hs, hl, hlen⟩ | ⟨hdir, hs, hl, hlen⟩⟩
    · refine ⟨v.i, hi, v.j, hj, Or.inl ?_⟩
      rw [if_pos ⟨hs, hl⟩]
      simp only [List.mem_singleton]
      cases v
      simp_all
    · refine ⟨v.i, hi, v.j, hj, Or.inr ?_⟩
      rw [if_pos ⟨hs, hl⟩]
      simp only [List.mem_singleton]
      cases v
      simp_all

theorem down_facts {g : Grid} {v : Variable} (hv : v ∈ gridVariables g)
    (hd : v.direction = Dir.down) :
    v.i < g.height ∧ 1 < v.length ∧ v.i + v.length ≤ g.height
    ∧ (∀ k, k < v.length → g.fill (v.i + k) v.j = true)
    ∧ (v.i = 0 ∨ g.fill (v.i - 1) v.j = false)
    ∧ (v.i + v.length = g.height ∨ g.fill (v.i + v.length) v.j = false) := by
  rw [mem_gridVariables] at hv
  obtain ⟨hi, hj, hcase⟩ := hv
  rcases hcase with ⟨_, hs, hl, hlen⟩ | ⟨hda, _⟩
  swap
  · rw [hd] at hda
    cases hda
  unfold downLen at hl hlen
  unfold startsDown at hs
  simp only [Bool.and_eq_true, Bool.or_eq_true, decide_eq_true_eq,
    Bool.not_eq_true'] at hs
  obtain ⟨hfill0, hstart⟩ := hs
  have hle := extLen_le (fun k => g.fill k v.j) (g.height - (v.i + 1)) (v.i + 1)
  refine ⟨hi, by omega, by omega, ?_, hstart, ?_⟩
  · intro k hk
    cases k with
    | zero => simpa using hfill0
    | succ m =>
      have hm : m < extLen (fun k => g.fill k v.j) (v.i + 1) (g.height - (v.i + 1)) := by
        omega
      have := extLen_true (fun k => g.fill k v.j) (g.height - (v.i + 1)) (v.i + 1) m hm
      have harith : v.i + 1 + m = v.i + (m + 1) := by omega
      rwa [harith] at this
  · by_cases hless :
        extLen (fun k => g.fill k v.j) (v.i + 1) (g.height - (v.i + 1))
          < g.height - (v.i + 1)
    · right
      have := extLen_stop (fun k => g.fill k v.j) (g.height - (v.i + 1)) (v.i + 1) hless
      have harith : v.i + 1 + extLen (fun k => g.fill k v.j) (v.i + 1) (g.height - (v.i + 1))
          = v.i + v.length := by omega
      rwa [harith] at this
    · left
      omega

theorem across_facts {g : Grid} {v : Variable} (hv : v ∈ gridVariables g)
    (hd : v.direction = Dir.across) :
    v.j < g.width ∧ 1 < v.length ∧ v.j + v.length ≤ g.width
    ∧ (∀ k, k < v.length → g.fill v.i (v.j + k) = true)
    ∧ (v.j = 0 ∨ g.fill v.i (v.j - 1) = false)
    ∧ (v.j + v.length = g.width ∨ g.fill v.i (v.j + v.length) = false) := by
  rw [mem_gridVariables] at hv
  obtain ⟨hi, hj, hcase⟩ := hv
  rcases hcase with ⟨hda, _⟩ | ⟨_, hs, hl, hlen⟩
  · rw [hd] at hda
    cases hda
  unfold acrossLen at hl hlen
  unfold startsAcross at hs
  simp only [Bool.and_eq_true, Bool.or_eq_true, decide_eq_true_eq,
    Bool.not_eq_true'] at hs
  obtain ⟨hfill0, hstart⟩ := hs
  have hle := extLen_le (fun k => g.fill v.i k) (g.width - (v.j + 1)) (v.j + 1)
  refine ⟨hj, by omega, by omega, ?_, hstart, ?_⟩
  · intro k hk
    cases k with
    | zero => simpa using hfill0
    | succ m =>
      have hm : m < extLen (fun k => g.fill v.i k) (v.j + 1) (g.width - (v.j + 1)) := by
        omega
      have := extLen_true (fun k => g.fill v.i k) (g.width - (v.j + 1)) (v.j + 1) m hm
      have harith : v.j + 1 + m = v.j + (m + 1) := by omega
      rwa [harith] at this
  · by_cases hless :
        extLen (fun k => g.fill v.i k) (v.j + 1) (g.width - (v.j + 1))
          < g.width - (v.j + 1)
    · right
      have := extLen_stop (fun k => g.fill v.i k) (g.width - (v.j + 1)) (v.j + 1) hless
      have harith : v.j + 1 + extLen (fun k => g.fill v.i k) (v.j + 1) (g.width - (v.j + 1))
          = v.j + v.length := by omega
      rwa [harith] at this
    · left
      omega

theorem down_not_lt {g : Grid} {u w : Variable} (hu : u ∈ gridVariables g)
    (hw : w ∈ gridVariables g) (hud : u.direction = Dir.down)
    (hwd : w.direction = Dir.down) (hj : u.j = w.j) (r : Nat)
    (hr1 : u.i ≤ r) (hr2 : r < u.i + u.length)
    (hr3 : w.i ≤ r) (hr4 : r < w.i + w.length) : ¬ u.i < w.i := by
  intro hlt
  obtain ⟨_, hul, _, hufill, _, _⟩ := down_facts hu hud
  obtain ⟨_, _, _, _, hwstart, _⟩ := down_facts hw hwd
  have hk : w.i - 1 - u.i < u.length := by omega
  have hf := hufill (w.i - 1 - u.i) hk
  have harith : u.i + (w.i - 1 - u.i) = w.i - 1 := by omega
  rw [harith, hj] at hf
  rcases hwstart with h0 | hfalse
  · omega
  · simp [hf] at hfalse

theorem down_eq {g : Grid} {u w : Variable} (hu : u ∈ gridVariables g)
    (hw : w ∈ gridVariables g) (hud : u.direction = Dir.down)
    (hwd : w.direction = Dir.down) (hj : u.j = w.j) (r : Nat)
    (hr1 : u.i ≤ r) (hr2 : r < u.i + u.length)
    (hr3 : w.i ≤ r) (hr4 : r < w.i + w.length) : u = w := by
  have hn1 := down_not_lt hu hw hud hwd hj r hr1 hr2 hr3 hr4
  have hn2 := down_not_lt hw hu hwd hud hj.symm r hr3 hr4 hr1 hr2
  have hi : u.i = w.i := by omega
  have hlen : u.length = w.length := by
    obtain ⟨_, _, hule, hufill, _, humax⟩ := down_facts hu hud
    obtain ⟨_, _, hwle, hwfill, _, hwmax⟩ := down_facts hw hwd
    by_contra hne
    rcases Nat.lt_or_ge u.length w.length with hlt | hge
    · have hfw := hwfill u.length hlt
      rcases humax with hh | hfu
      · omega
      · rw [hi, hj] at hfu
        simp [hfw] at hfu
    · have hlt2 : w.length < u.length := by omega
      have hfu := hufill w.length hlt2
      rcases hwmax with hh | hfw
      · omega
      · rw [← hi, ← hj] at hfw
        simp [hfu] at hfw
  cases u
  cases w
  simp_all

theorem across_not_lt {g : Grid} {u w : Variable} (hu : u ∈ gridVariables g)
    (hw : w ∈ gridVariables g) (hud : u.direction = Dir.across)
    (hwd : w.direction = Dir.across) (hi : u.i = w.i) (r : Nat)
    (hr1 : u.j ≤ r) (hr2 : r < u.j + u.length)
    (hr3 : w.j ≤ r) (hr4 : r < w.j + w.length) : ¬ u.j < w.j := by
  intro hlt
  obtain ⟨_, hul, _, hufill, _, _⟩ := across_facts hu hud
  obtain ⟨_, _, _, _, hwstart, _⟩ := across_facts hw hwd
  have hk : w.j - 1 - u.j < u.length := by omega
  have hf := hufill (w.j - 1 - u.j) hk
  have harith : u.j + (w.j - 1 - u.j) = w.j - 1 := by omega
  rw [harith, hi] at hf
  rcases hwstart with h0 | hfalse
  · omega
  · simp [hf] at hfalse

theorem across_eq {g : Grid} {u w : Variable} (hu : u ∈ gridVariables g)
    (hw : w ∈ gridVariables g) (hud : u.direction = Dir.across)
    (hwd : w.direction = Dir.across) (hi : u.i = w.i) (r : Nat)
    (hr1 : u.j ≤ r) (hr2 : r < u.j + u.length)
    (hr3 : w.j ≤ r) (hr4 : r < w.j + w.length) : u = w := by
  have hn1 := across_not_lt hu hw hud hwd hi r hr1 hr2 hr3 hr4
  have hn2 := across_not_lt hw hu hwd hud hi.symm r hr3 hr4 hr1 hr2
  have hj : u.j = w.j := by omega
  have hlen : u.length = w.length := by
    obtain ⟨_, _, hule, hufill, _, humax⟩ := across_facts hu hud
    obtain ⟨_, _, hwle, hwfill, _, hwmax⟩ := across_facts hw hwd
    by_contra hne
    rcases Nat.lt_or_ge u.length w.length with hlt | hge
    · have hfw := hwfill u.length hlt
      rcases humax with hh | hfu
      · omega
      · rw [hi, hj] at hfu
        simp [hfw] at hfu
    · have hlt2 : w.length < u.length := by omega
      have hfu := hufill w.length hlt2
      rcases hwmax with hh | hfw
      · omega
      · rw [← hi, ← hj] at hfw
        simp [hfu] at hfw
  cases u
  cases w
  simp_all

/-- Any two distinct slots recorded by the grid scan share at most one cell:
same-direction slots sharing a cell would be the same maximal run, and an
Across/Down pair can only meet at the one cell on the Across slot's row and
the Down slot's column. -/
theorem sharedCell_unique {g : Grid} {v1 v2 : Variable}
    (h1 : v1 ∈ gridVariables g) (h2 : v2 ∈ gridVariables g) (hne : v1 ≠ v2) :
    ∀ c c2, c ∈ v1.cells → c ∈ v2.cells → c2 ∈ v1.cells → c2 ∈ v2.cells →
      c = c2 := by
  intro c c2 hc1 hc2 hc21 hc22
  cases hd1 : v1.direction with
  | down =>
    cases hd2 : v2.direction with
    | down =>
      exfalso
      rw [mem_cells_down hd1] at hc1
      rw [mem_cells_down hd2] at hc2
      exact hne (down_eq h1 h2 hd1 hd2 (hc1.1.symm.trans hc2.1) c.1
        hc1.2.1 hc1.2.2 hc2.2.1 hc2.2.2)
    | across =>
      rw [mem_cells_down hd1] at hc1 hc21
      rw [mem_cells_across hd2] at hc2 hc22
      exact Prod.ext (hc2.1.trans hc22.1.symm) (hc1.1.trans hc21.1.symm)
  | across =>
    cases hd2 : v2.direction with
    | down =>
      rw [mem_cells_across hd1] at hc1 hc21
      rw [mem_cells_down hd2] at hc2 hc22
      exact Prod.ext (hc1.1.trans hc21.1.symm) (hc2.1.trans hc22.1.symm)
    | across =>
      exfalso
      rw [mem_cells_across hd1] at hc1
      rw [mem_cells_across hd2] at hc2
      exact hne (across_eq h1 h2 hd1 hd2 (hc1.1.symm.trans hc2.1) c.2
        hc1.2.1 hc1.2.2 hc2.2.1 hc2.2.2)

theorem nodup_length_le_one {α : Type} {l : List α} (hnd : l.Nodup)
    (hall : ∀ a b, a ∈ l → b ∈ l → a = b) : l.length ≤ 1 := by
  cases l with
  | nil => simp
  | cons a rest =>
    cases rest with
    | nil => simp
    | cons b t =>
      exfalso
      have hab : a = b := hall a b (by simp) (by simp)
      rw [List.nodup_cons] at hnd
      exact hnd.1 (hab ▸ List.mem_cons_self b t)

theorem mem_sharedCells (v1 v2 : Variable) (c : Nat × Nat) :
    c ∈ sharedCells v1 v2 ↔ c ∈ v1.cells ∧ c ∈ v2.cells := by
  simp [sharedCells, List.mem_filter]

/-- **C5 counterexample.**  The overlap construction never fails: on a pair
of distinct slots whose cell sequences share two cells it silently records
an overlap index pair derived from one shared cell (the source pops an
arbitrary element of the intersection set and records its indices; there is
no invariant check and no failure path in `Crossword.__init__`). -/
theorem overlap_silent_record_cex :
    (⟨0, 0, Dir.across, 3⟩ : Variable) ≠ (⟨0, 0, Dir.across, 2⟩ : Variable)
    ∧ 2 ≤ (sharedCells ⟨0, 0, Dir.across, 3⟩ ⟨0, 0, Dir.across, 2⟩).length
    ∧ overlapOf ⟨0, 0, Dir.across, 3⟩ ⟨0, 0, Dir.across, 2⟩ = some (0, 0) := by
  decide

/-- **C5 amended.**  The construction performs no invariant check and would
silently record an overlap for a multi-cell intersection; however, for the
slot sets actually built by the grid scan the situation never arises: any
two distinct slots of a built Constraint Graph share at most one cell, so
the recorded overlap is the unique shared cell's index pair. -/
theorem gridVariables_overlap_invariant (g : Grid) (v1 v2 : Variable)
    (h1 : v1 ∈ gridVariables g) (h2 : v2 ∈ gridVariables g) (hne : v1 ≠ v2) :
    (sharedCells v1 v2).length ≤ 1 := by
  apply nodup_length_le_one ((cells_nodup v1).filter _)
  intro a b ha hb
  simp only [List.mem_filter, decide_eq_true_eq] at ha hb
  exact sharedCell_unique h1 h2 hne a b ha.1 ha.2 hb.1 hb.2

/-- Witness for `gridVariables_overlap_invariant` on the crossing slots of
`gW2`. -/
theorem gridVariables_overlap_invariant_witness :
    vDW2 ∈ gridVariables gW2 ∧ vAW2 ∈ gridVariables gW2 ∧ vDW2 ≠ vAW2
    ∧ (sharedCells vDW2 vAW2).length ≤ 1 :=
  ⟨by decide, by decide, by decide,
    gridVariables_overlap_invariant gW2 vDW2 vAW2 (by decide) (by decide)
      (by decide)⟩

theorem sharedCells_eq_nil_symm (v1 v2 : Variable)
    (h : sharedCells v1 v2 = []) : sharedCells v2 v1 = [] := by
  by_contra hcon
  obtain ⟨c, hc⟩ := List.exists_mem_of_ne_nil _ hcon
  rw [mem_sharedCells] at hc
  have hmem : c ∈ sharedCells v1 v2 := (mem_sharedCells _ _ _).mpr ⟨hc.2, hc.1⟩
  rw [h] at hmem
  cases hmem

/-- **C6** (confirmed).  For every built Constraint Graph and every pair of
distinct slots, `overlaps[A, B]` is `None` iff `overlaps[B, A]` is, and
`overlaps[A, B] = (p, q)` iff `overlaps[B, A] = (q, p)`. -/
theorem overlaps_symmetric (g : Grid) (v1 v2 : Variable)
    (h1 : v1 ∈ gridVariables g) (h2 : v2 ∈ gridVariables g) (hne : v1 ≠ v2) :
    (overlapOf v1 v2 = none ↔ overlapOf v2 v1 = none)
    ∧ ∀ p q : Nat, overlapOf v1 v2 = some (p, q) ↔ overlapOf v2 v1 = some (q, p) := by
  cases hs : sharedCells v1 v2 with
  | nil =>
    have hs2 : sharedCells v2 v1 = [] := sharedCells_eq_nil_symm v1 v2 hs
    constructor
    · unfold overlapOf
      rw [hs, hs2]
    · intro p q
      unfold overlapOf
      rw [hs, hs2]
      simp
  | cons c t =>
    have hc : c ∈ v1.cells ∧ c ∈ v2.cells := by
      have hmem : c ∈ sharedCells v1 v2 := by
        rw [hs]
        exact List.mem_cons_self c t
      exact (mem_sharedCells _ _ _).mp hmem
    cases hs2 : sharedCells v2 v1 with
    | nil =>
      exfalso
      have hmem : c ∈ sharedCells v2 v1 := (mem_sharedCells _ _ _).mpr ⟨hc.2, hc.1⟩
      rw [hs2] at hmem
      cases hmem
    | cons c2 t2 =>
      have hc2 : c2 ∈ v2.cells ∧ c2 ∈ v1.cells := by
        have hmem : c2 ∈ sharedCells v2 v1 := by
          rw [hs2]
          exact List.mem_cons_self c2 t2
        exact (mem_sharedCells _ _ _).mp hmem
      have hcc : c = c2 := sharedCell_unique h1 h2 hne c c2 hc.1 hc.2 hc2.2 hc2.1
      subst hcc
      constructor
      · unfold overlapOf
        rw [hs, hs2]
        simp
      · intro p q
        unfold overlapOf
        rw [hs, hs2]
        simp only [Option.some.injEq, Prod.mk.injEq]
        exact and_comm

/-- Witness for `overlaps_symmetric` on the crossing slots of `gW2`. -/
theorem overlaps_symmetric_witness :
    vDW2 ∈ gridVariables gW2 ∧ vAW2 ∈ gridVariables gW2 ∧ vDW2 ≠ vAW2
    ∧ (overlapOf vDW2 vAW2 = some (0, 0) ↔ overlapOf vAW2 vDW2 = some (0, 0)) :=
  ⟨by decide, by decide, by decide,
    (overlaps_symmetric gW2 vDW2 vAW2 (by decide) (by decide) (by decide)).2 0 0⟩

/-!  In-bounds indexing: the fallible renderings agree with the total
ones under the length preconditions. -/

theorem idxOf_lt_length {c : Nat × Nat} {l : List (Nat × Nat)} (h : c ∈ l) :
    idxOf c l < l.length := by
  induction l with
  | nil => cases h
  | cons a rest ih =>
    rw [idxOf]
    by_cases ha : a = c
    · rw [if_pos ha]
      simp
    · rw [if_neg ha]
      have hmem : c ∈ rest := by
        rcases List.mem_cons.mp h with heq | hm
        · exact absurd heq.symm ha
        · exact hm
      simpa using ih hmem

theorem pyIdx?_eq {w : Word} {n : Nat} (h : n < w.length) :
    pyIdx? w n = some (pyIdx w n) := by
  unfold pyIdx pyIdx?
  rw [List.getD_eq_getElem?_getD, List.get?_eq_getElem?, List.getElem?_eq_getElem h]
  rfl

theorem lookupA_mem {α : Type} {l : List (Variable × α)} {v : Variable} {x : α}
    (h : lookupA l v = some x) : (v, x) ∈ l := by
  induction l with
  | nil => cases h
  | cons p rest ih =>
    rw [lookupA] at h
    by_cases hp : p.1 = v
    · rw [if_pos hp] at h
      cases h
      have hvp : (v, p.2) = p := by rw [← hp]
      rw [hvp]
      exact List.mem_cons_self p rest
    · rw [if_neg hp] at h
      exact List.mem_cons_of_mem p (ih h)

theorem overlapOf_bounds (u v : Variable) (o : Nat × Nat)
    (h : overlapOf u v = some o) : o.1 < u.length ∧ o.2 < v.length := by
  unfold overlapOf at h
  cases hs : sharedCells u v with
  | nil => rw [hs] at h; cases h
  | cons c t =>
    rw [hs] at h
    cases h
    have hc : c ∈ u.cells ∧ c ∈ v.cells := by
      have hmem : c ∈ sharedCells u v := by
        rw [hs]
        exact List.mem_cons_self c t
      exact (mem_sharedCells _ _ _).mp hmem
    constructor
    · have h2 := idxOf_lt_length hc.1
      rw [cells_length] at h2
      simpa using h2
    · have h2 := idxOf_lt_length hc.2
      rw [cells_length] at h2
      simpa using h2

theorem anyMatchF_eq {xw : Word} {o1 o2 : Nat} (hx : o1 < xw.length) :
    ∀ {dy : List Word}, (∀ v ∈ dy, o2 < v.length) →
    anyMatchF (pyIdx? xw o1) o2 dy
      = some (dy.any fun yw => pyIdx xw o1 == pyIdx yw o2) := by
  intro dy
  induction dy with
  | nil => intro _; simp [anyMatchF]
  | cons yw rest ih =>
    intro hy
    have hyw : o2 < yw.length := hy yw (by simp)
    have hrest := ih fun v hv => hy v (by simp [hv])
    rw [pyIdx?_eq hx] at hrest
    rw [anyMatchF, pyIdx?_eq hx, pyIdx?_eq hyw, hrest]
    rfl

theorem filterKeepF_eq {dy : List Word} {o1 o2 : Nat}
    (hy : ∀ v ∈ dy, o2 < v.length) :
    ∀ {dx : List Word}, (∀ w ∈ dx, o1 < w.length) →
    filterKeepF dy o1 o2 dx
      = some (dx.filter fun xw => dy.any fun yw => pyIdx xw o1 == pyIdx yw o2) := by
  intro dx
  induction dx with
  | nil => intro _; simp [filterKeepF]
  | cons xw rest ih =>
    intro hx
    rw [filterKeepF, anyMatchF_eq (hx xw (by simp)) hy,
      ih fun w hw => hx w (by simp [hw])]
    simp only [Option.bind_eq_bind, Option.some_bind, List.filter_cons]
    by_cases hk : (dy.any fun yw => pyIdx xw o1 == pyIdx yw o2) = true
    · simp [hk]
    · simp [hk]

theorem domOf_length {d : Domains}
    (hdom : ∀ p ∈ d, ∀ w2 ∈ p.2, (w2 : Word).length = p.1.length)
    (v : Variable) : ∀ w ∈ domOf d v, w.length = v.length := by
  intro w hw
  unfold domOf at hw
  cases hl : lookupA d v with
  | none => rw [hl] at hw; cases hw
  | some s =>
    rw [hl] at hw
    exact hdom (v, s) (lookupA_mem hl) w hw

theorem reviseF_eq {d : Domains} {x y : Variable}
    (hdom : ∀ p ∈ d, ∀ w2 ∈ p.2, (w2 : Word).length = p.1.length)
    (hov : ∀ u v2 : Variable, ∀ o : Nat × Nat, overlapOf u v2 = some o →
        o.1 < u.length ∧ o.2 < v2.length) :
    reviseF d x y = some (revise d x y) := by
  cases ho : overlapOf x y with
  | none => simp [reviseF, revise, ho]
  | some o =>
    have hb := hov x y o ho
    have hxd : ∀ w ∈ domOf d x, o.1 < w.length := fun w hw => by
      rw [domOf_length hdom x w hw]
      exact hb.1
    have hyd : ∀ v2 ∈ domOf d y, o.2 < v2.length := fun v2 hv2 => by
      rw [domOf_length hdom y v2 hv2]
      exact hb.2
    simp [reviseF, revise, ho, filterKeepF_eq hyd hxd]
    rw [← decide_not, decide_eq_decide]
    push_neg
    rfl

theorem conflictCountF_eq {w : Word} {o1 o2 : Nat} (hw : o1 < w.length) :
    ∀ {dnb : List Word}, (∀ v ∈ dnb, o2 < v.length) →
    conflictCountF w o1 o2 dnb
      = some (dnb.countP fun nw => pyIdx nw o2 != pyIdx w o1) := by
  intro dnb
  induction dnb with
  | nil => intro _; rfl
  | cons nw rest ih =>
    intro h
    rw [conflictCountF, pyIdx?_eq (h nw (by simp)), pyIdx?_eq hw,
      ih fun v hv => h v (by simp [hv]), List.countP_cons]
    by_cases hp : pyIdx nw o2 = pyIdx w o1
    · simp [hp]
    · simp [hp, Nat.add_comm]

theorem sumConflictsF_eq {d : Domains} {var : Variable} {w : Word}
    (hdom : ∀ p ∈ d, ∀ w2 ∈ p.2, (w2 : Word).length = p.1.length)
    (hov : ∀ u v2 : Variable, ∀ o : Nat × Nat, overlapOf u v2 = some o →
        o.1 < u.length ∧ o.2 < v2.length)
    (hwlen : w.length = var.length) :
    ∀ l : List Variable, sumConflictsF d var w l
      = some ((l.map fun nb =>
          match overlapOf var nb with
          | some o => (domOf d nb).countP fun nw => pyIdx nw o.2 != pyIdx w o.1
          | none => 0).sum) := by
  intro l
  induction l with
  | nil => rfl
  | cons nb rest ih =>
    rw [sumConflictsF]
    cases ho : overlapOf var nb with
    | none => simp [ho, ih]
    | some o =>
      have hb := hov var nb o ho
      have hnb : ∀ v2 ∈ domOf d nb, o.2 < v2.length := fun v2 hv2 => by
        rw [domOf_length hdom nb v2 hv2]
        exact hb.2
      have hw1 : o.1 < w.length := by
        rw [hwlen]
        exact hb.1
      simp [ho, conflictCountF_eq hw1 hnb, ih]

theorem nbCheckF_eq {a : Assignment} {v : Variable} {w : Word}
    (hbound : ∀ nb nw o, lookupA a nb = some nw → overlapOf v nb = some o →
        o.1 < w.length ∧ o.2 < (nw : Word).length) :
    ∀ l : List Variable, nbCheckF a v w l
      = some (l.all fun nb =>
          match lookupA a nb with
          | none => true
          | some nw =>
            match overlapOf v nb with
            | some o => pyIdx w o.1 == pyIdx nw o.2
            | none => true) := by
  intro l
  induction l with
  | nil => rfl
  | cons nb rest ih =>
    rw [nbCheckF]
    cases hl : lookupA a nb with
    | none => simp [hl, ih]
    | some nw =>
      cases ho : overlapOf v nb with
      | none => simp [hl, ho, ih]
      | some o =>
        have hb := hbound nb nw o hl ho
        simp [hl, ho, pyIdx?_eq hb.1, pyIdx?_eq hb.2, ih]

theorem itemsCheckF_eq {cw : Crossword} {a : Assignment}
    (hassign : ∀ p ∈ a, (p.2 : Word).length = p.1.length)
    (hov : ∀ u v2 : Variable, ∀ o : Nat × Nat, overlapOf u v2 = some o →
        o.1 < u.length ∧ o.2 < v2.length) :
    ∀ l : Assignment, (∀ p ∈ l, p ∈ a) →
    itemsCheckF cw a l = some (l.all fun p =>
        decide (p.2.length = p.1.length)
        && (neighborsList cw p.1).all fun nb =>
            match lookupA a nb with
            | none => true
            | some nw =>
              match overlapOf p.1 nb with
              | some o => pyIdx p.2 o.1 == pyIdx nw o.2
              | none => true) := by
  intro l
  induction l with
  | nil => intro _; rfl
  | cons p rest ih =>
    intro hsub
    rw [itemsCheckF]
    have hb : ∀ nb nw o, lookupA a nb = some nw → overlapOf p.1 nb = some o →
        o.1 < (p.2 : Word).length ∧ o.2 < (nw : Word).length := by
      intro nb nw o hl ho
      have h1 := hassign p (hsub p (by simp))
      have h2 : (nw : Word).length = nb.length := hassign (nb, nw) (lookupA_mem hl)
      have hbo := hov p.1 nb o ho
      constructor
      · rw [h1]
        exact hbo.1
      · rw [h2]
        exact hbo.2
    rw [nbCheckF_eq hb (neighborsList cw p.1), ih fun q hq => hsub q (by simp [hq])]
    rfl

/-- **C10** (confirmed).  Under the precondition that every word stored in a
slot's domain and every assigned word has its slot's length, and that every
recorded overlap is within both slots' lengths, all character indexing
performed by `revise`, `order_domain_values` (whose only indexing is in its
inner `count_conflicts`) and `consistent` is in bounds: the fallible
renderings return `some` of the total ones, so no `IndexError` is
possible. -/
theorem indexing_in_bounds (cw : Crossword) (d : Domains) (a : Assignment)
    (x y var : Variable)
    (hdom : ∀ p ∈ d, ∀ w2 ∈ p.2, (w2 : Word).length = p.1.length)
    (hassign : ∀ p ∈ a, (p.2 : Word).length = p.1.length)
    (hov : ∀ u v2 : Variable, ∀ o : Nat × Nat, overlapOf u v2 = some o →
        o.1 < u.length ∧ o.2 < v2.length) :
    reviseF d x y = some (revise d x y)
    ∧ (∀ w ∈ domOf d var,
        countConflictsF cw d a var w = some (countConflicts cw d a var w))
    ∧ consistentF cw a = some (consistentB cw a) := by
  refine ⟨reviseF_eq hdom hov, ?_, ?_⟩
  · intro w hw
    unfold countConflictsF countConflicts
    exact sumConflictsF_eq hdom hov (domOf_length hdom var w hw) _
  · unfold consistentF consistentB
    by_cases hdup : (a.map Prod.snd).dedup.length < a.length
    · rw [if_pos hdup]
      simp [hdup]
    · rw [if_neg hdup]
      rw [itemsCheckF_eq hassign hov a fun p hp => hp]
      simp [hdup]

/-- Witness for `indexing_in_bounds` on the `gW2` instance. -/
theorem indexing_in_bounds_witness :
    (∀ p ∈ dW2, ∀ w2 ∈ p.2, (w2 : Word).length = p.1.length)
    ∧ reviseF dW2 vDW2 vAW2 = some (revise dW2 vDW2 vAW2) :=
  ⟨by decide,
    (indexing_in_bounds cwW2 dW2 [(vAW2, ['A', 'B'])] vDW2 vAW2 vDW2
      (by decide) (by decide)
      (fun u v2 o h => overlapOf_bounds u v2 o h)).1⟩

/-!  The MRV minimum and the behavior of the search on an empty domain. -/

theorem lexLe_refl (p : Nat × Int) : lexLe p p := Or.inr ⟨rfl, le_refl _⟩

theorem lexLt_le {p q : Nat × Int} (h : lexLt p q) : lexLe p q := by
  unfold lexLt at h
  unfold lexLe
  omega

theorem not_lexLt_le {p q : Nat × Int} (h : ¬ lexLt p q) : lexLe q p := by
  unfold lexLt at h
  unfold lexLe
  omega

theorem lexLe_trans {p q r : Nat × Int} (h1 : lexLe p q) (h2 : lexLe q r) :
    lexLe p r := by
  unfold lexLe at *
  omega

theorem minBy_le (key : Variable → Nat × Int) :
    ∀ xs x v, v ∈ x :: xs → lexLe (key (minBy key x xs)) (key v) := by
  intro xs
  induction xs with
  | nil =>
    intro x v hv
    rcases List.mem_cons.mp hv with heq | hm
    · subst heq
      exact lexLe_refl _
    · cases hm
  | cons y ys ih =>
    intro x v hv
    have hfold : minBy key x (y :: ys) =
        minBy key (if lexLt (key y) (key x) then y else x) ys := rfl
    have hx2 : lexLe (key (if lexLt (key y) (key x) then y else x)) (key x)
        ∧ lexLe (key (if lexLt (key y) (key x) then y else x)) (key y) := by
      by_cases hlt : lexLt (key y) (key x)
      · rw [if_pos hlt]
        exact ⟨lexLt_le hlt, lexLe_refl _⟩
      · rw [if_neg hlt]
        exact ⟨lexLe_refl _, not_lexLt_le hlt⟩
    have hmin := ih (if lexLt (key y) (key x) then y else x)
    rcases List.mem_cons.mp hv with heq | hm
    · subst heq
      rw [hfold]
      exact lexLe_trans (hmin _ (List.mem_cons_self _ _)) hx2.1
    · rcases List.mem_cons.mp hm with heq2 | hm2
      · subst heq2
        rw [hfold]
        exact lexLe_trans (hmin _ (List.mem_cons_self _ _)) hx2.2
      · rw [hfold]
        exact hmin v (List.mem_cons_of_mem _ hm2)

theorem minBy_mem (key : Variable → Nat × Int) :
    ∀ xs x, minBy key x xs ∈ x :: xs := by
  intro xs
  induction xs with
  | nil => intro x; exact List.mem_cons_self x []
  | cons y ys ih =>
    intro x
    have hfold : minBy key x (y :: ys) =
        minBy key (if lexLt (key y) (key x) then y else x) ys := rfl
    rw [hfold]
    have := ih (if lexLt (key y) (key x) then y else x)
    rcases List.mem_cons.mp this with heq | hm
    · rw [heq]
      by_cases hlt : lexLt (key y) (key x)
      · rw [if_pos hlt]
        exact List.mem_cons_of_mem x (List.mem_cons_self y ys)
      · rw [if_neg hlt]
        exact List.mem_cons_self x _
    · exact List.mem_cons_of_mem x (List.mem_cons_of_mem y hm)

theorem selectUnassigned_spec {cw : Crossword} {d : Domains} {a : Assignment}
    {var : Variable} (h : selectUnassigned cw d a = some var) :
    var ∈ cw.vars ∧ lookupA a var = none := by
  unfold selectUnassigned at h
  cases hs : cw.vars.filter (fun v => lookupA a v = none) with
  | nil => rw [hs] at h; cases h
  | cons u us =>
    rw [hs] at h
    cases h
    have hmem : minBy (mrvKey cw d) u us ∈ u :: us := minBy_mem _ us u
    rw [← hs] at hmem
    have := List.mem_filter.mp hmem
    exact ⟨this.1, by simpa using this.2⟩

theorem lookupA_eq_none_iff {α : Type} (a : List (Variable × α)) (v : Variable) :
    lookupA a v = none ↔ v ∉ a.map Prod.fst := by
  induction a with
  | nil => simp [lookupA]
  | cons p rest ih =>
    rw [lookupA]
    by_cases hp : p.1 = v
    · simp [hp]
    · simp [hp, ih, Ne.symm hp]

/-- If some variable of the puzzle is unassigned and has an empty domain,
`backtrack` fails immediately: the MRV heuristic selects a variable with an
empty domain and the value loop has nothing to try. -/
theorem backtrackFuel_none_of_empty (cw : Crossword) (d : Domains) (fuel : Nat)
    (a : Assignment) (v0 : Variable) (hv : v0 ∈ cw.vars)
    (hun : lookupA a v0 = none) (hemp : domOf d v0 = []) :
    backtrackFuel cw d (fuel + 1) a = none := by
  rw [backtrackFuel]
  have hnc : assignmentCompleteB cw a = false := by
    unfold assignmentCompleteB
    rw [List.all_eq_false]
    exact ⟨v0, hv, by simp [hun]⟩
  rw [hnc]
  simp only [Bool.false_eq_true, if_false]
  have hv0mem : v0 ∈ cw.vars.filter (fun v => lookupA a v = none) := by
    rw [List.mem_filter]
    exact ⟨hv, by simp [hun]⟩
  cases hs : cw.vars.filter (fun v => lookupA a v = none) with
  | nil =>
    rw [hs] at hv0mem
    cases hv0mem
  | cons u us =>
    rw [hs] at hv0mem
    have hsel : selectUnassigned cw d a = some (minBy (mrvKey cw d) u us) := by
      unfold selectUnassigned
      rw [hs]
    have hle := minBy_le (mrvKey cw d) us u v0 hv0mem
    have hkey0 : (mrvKey cw d v0).1 = 0 := by
      simp [mrvKey, hemp]
    have hkey1 : (mrvKey cw d (minBy (mrvKey cw d) u us)).1
        = (domOf d (minBy (mrvKey cw d) u us)).length := rfl
    have hkey : (domOf d (minBy (mrvKey cw d) u us)).length = 0 := by
      unfold lexLe at hle
      omega
    have hdvar : domOf d (minBy (mrvKey cw d) u us) = [] :=
      List.length_eq_zero.mp hkey
    have hord : orderDomainValues cw d a (minBy (mrvKey cw d) u us) = [] := by
      unfold orderDomainValues
      rw [hdvar]
      rfl
    rw [hsel]
    simp only [hord, firstSome]

theorem neighborsList_subset {cw : Crossword} {var v : Variable}
    (h : v ∈ neighborsList cw var) : v ∈ cw.vars :=
  (List.mem_filter.mp h).1

theorem ac3_false_empty (cw : Crossword) :
    ∀ arcs d, (∀ p ∈ arcs, (p : Variable × Variable).1 ∈ cw.vars) →
      ∀ d2, ac3 cw arcs d = (d2, false) → ∃ v ∈ cw.vars, domOf d2 v = [] := by
  intro arcs d
  induction arcs, d using ac3.induct cw with
  | case1 d =>
    intro _ d2 h
    rw [ac3_nil] at h
    cases h
  | case2 x y rest d r hr hemp =>
    intro hsub d2 h
    rw [ac3_cons] at h
    rw [if_pos hr, if_pos hemp] at h
    cases h
    exact ⟨x, hsub (x, y) (List.mem_cons_self _ _), hemp⟩
  | case3 x y rest d r hr hemp ih =>
    intro hsub d2 h
    rw [ac3_cons] at h
    rw [if_pos hr, if_neg hemp] at h
    apply ih _ d2 h
    intro p hp
    rcases List.mem_append.mp hp with hrest | hnew
    · exact hsub p (List.mem_cons_of_mem _ hrest)
    · obtain ⟨z, hz, rfl⟩ := List.mem_map.mp hnew
      exact neighborsList_subset (List.mem_filter.mp hz).1
  | case4 x y rest d r hr ih =>
    intro hsub d2 h
    rw [ac3_cons] at h
    rw [if_neg hr] at h
    apply ih _ d2 h
    intro p hp
    exact hsub p (List.mem_cons_of_mem _ hp)

theorem revise_mem_subset (d : Domains) (x y z : Variable) :
    ∀ w, w ∈ domOf (revise d x y).1 z → w ∈ domOf d z := by
  intro w hw
  cases ho : overlapOf x y with
  | none =>
    simp only [revise, ho] at hw
    exact hw
  | some o =>
    simp only [revise, ho] at hw
    by_cases hz : z = x
    · subst hz
      rw [domOf_updateDom_filter] at hw
      exact (List.mem_filter.mp hw).1
    · unfold domOf at hw
      rw [lookupA_updateDom_ne hz] at hw
      exact hw

theorem ac3_domains_subset (cw : Crossword) :
    ∀ arcs d z w, w ∈ domOf (ac3 cw arcs d).1 z → w ∈ domOf d z := by
  intro arcs d
  induction arcs, d using ac3.induct cw with
  | case1 d =>
    intro z w hw
    rw [ac3_nil] at hw
    exact hw
  | case2 x y rest d r hr hemp =>
    intro z w hw
    rw [ac3_cons, if_pos hr, if_pos hemp] at hw
    exact revise_mem_subset d x y z w hw
  | case3 x y rest d r hr hemp ih =>
    intro z w hw
    rw [ac3_cons, if_pos hr, if_neg hemp] at hw
    exact revise_mem_subset d x y z w (ih z w hw)
  | case4 x y rest d r hr ih =>
    intro z w hw
    rw [ac3_cons, if_neg hr] at hw
    exact revise_mem_subset d x y z w (ih z w hw)

theorem domOf_init {cw : Crossword} {v : Variable} (hv : v ∈ cw.vars) :
    domOf (initDomains cw) v = cw.words := by
  unfold initDomains
  suffices h : ∀ l : List Variable, v ∈ l →
      domOf (l.map fun u => (u, cw.words)) v = cw.words from h cw.vars hv
  intro l hl
  induction l with
  | nil => cases hl
  | cons u us ih =>
    rcases List.mem_cons.mp hl with heq | hm
    · subst heq
      simp [domOf, lookupA]
    · by_cases hu : u = v
      · subst hu
        simp [domOf, lookupA]
      · have hrec := ih hm
        unfold domOf at hrec ⊢
        simp [lookupA, hu, hrec]

theorem ac3W2_eval : ac3 cwW2 (allArcs cwW2) dW2 = (dEmptyW2, false) := by
  rw [show allArcs cwW2 = [(vDW2, vAW2), (vAW2, vDW2)] from by decide, ac3_cons,
    show revise dW2 vDW2 vAW2 = (dEmptyW2, true) from by decide]
  rfl

/-- **C2 counterexample.**  On the `gW2` instance AC-3 reports
unsatisfiability, yet `solve` still enters the backtracking search (the
source discards the result of `self.ac3()` and calls
`self.backtrack(dict())` unconditionally; the instrumented `solveT` records
the entry).  `solve` does return the no-solution result, but not without
entering backtracking. -/
theorem solve_enters_backtracking_cex :
    (ac3 cwW2 (allArcs cwW2) (enforceNodeConsistency (initDomains cwW2))).2 = false
    ∧ (solveT cwW2).2 = true
    ∧ (solveT cwW2).1 = none := by
  refine ⟨?_, rfl, ?_⟩
  · show (ac3 cwW2 (allArcs cwW2) dW2).2 = false
    rw [ac3W2_eval]
  · show backtrack cwW2 (ac3 cwW2 (allArcs cwW2) dW2).1 [] = none
    rw [ac3W2_eval]
    decide

/-- **C2 amended.**  `solve` runs node consistency, then AC-3 over all arcs
with its Boolean result ignored, and always enters the backtracking search;
nevertheless, whenever AC-3 reports unsatisfiability some domain is empty,
the MRV selection immediately picks an empty-domain slot, and the search
fails at once, so `solve` still returns the no-solution result.  Likewise,
when the vocabulary has no word of some slot's exact length, node
consistency empties that slot's domain (AC-3 never re-adds words) and
`solve` returns the no-solution result — again through an immediately
failing backtracking call. -/
theorem solve_none_of_ac3_failure (cw : Crossword) :
    ((ac3 cw (allArcs cw)
        (enforceNodeConsistency (initDomains cw))).2 = false →
      solve cw = none)
    ∧ (∀ v ∈ cw.vars, (∀ w ∈ cw.words, (w : Word).length ≠ v.length) →
      solve cw = none) := by
  constructor
  · intro hfail
    cases hac : ac3 cw (allArcs cw) (enforceNodeConsistency (initDomains cw)) with
    | mk dres flag =>
      have hflag : flag = false := by
        rw [hac] at hfail
        exact hfail
      subst hflag
      have harcs : ∀ p ∈ allArcs cw, (p : Variable × Variable).1 ∈ cw.vars := by
        intro p hp
        simp only [allArcs, List.mem_flatMap, List.mem_map] at hp
        obtain ⟨x, hx, y, hy, rfl⟩ := hp
        exact hx
      obtain ⟨v0, hv0, hemp⟩ :=
        ac3_false_empty cw (allArcs cw) (enforceNodeConsistency (initDomains cw))
          harcs dres hac
      show backtrack cw
        (ac3 cw (allArcs cw) (enforceNodeConsistency (initDomains cw))).1 [] = none
      rw [hac]
      exact backtrackFuel_none_of_empty cw dres cw.vars.length [] v0 hv0 rfl hemp
  · intro v hv hlen
    have h1 : domOf (enforceNodeConsistency (initDomains cw)) v = [] := by
      rw [domOf_enforce, domOf_init hv]
      rw [List.filter_eq_nil_iff]
      intro w hw
      simp [hlen w hw]
    have h2 : domOf
        (ac3 cw (allArcs cw) (enforceNodeConsistency (initDomains cw))).1 v = [] := by
      rw [List.eq_nil_iff_forall_not_mem]
      intro w hw
      have := ac3_domains_subset cw (allArcs cw)
        (enforceNodeConsistency (initDomains cw)) v w hw
      rw [h1] at this
      cases this
    show backtrack cw
      (ac3 cw (allArcs cw) (enforceNodeConsistency (initDomains cw))).1 [] = none
    exact backtrackFuel_none_of_empty cw _ cw.vars.length [] v hv rfl h2

/-- Witness for `solve_none_of_ac3_failure` on the `gW2` instance. -/
theorem solve_none_of_ac3_failure_witness :
    (ac3 cwW2 (allArcs cwW2)
      (enforceNodeConsistency (initDomains cwW2))).2 = false
    ∧ solve cwW2 = none :=
  ⟨by rw [show enforceNodeConsistency (initDomains cwW2) = dW2 from rfl,
        ac3W2_eval],
    (solve_none_of_ac3_failure cwW2).1
      (by rw [show enforceNodeConsistency (initDomains cwW2) = dW2 from rfl,
        ac3W2_eval])⟩

/-!  Soundness of the backtracking search. -/

theorem lookupA_of_mem_nodup {α : Type} {a : List (Variable × α)} {v : Variable}
    {x : α} (hmem : (v, x) ∈ a) (hnd : (a.map Prod.fst).Nodup) :
    lookupA a v = some x := by
  induction a with
  | nil => cases hmem
  | cons p rest ih =>
    rw [List.map_cons, List.nodup_cons] at hnd
    rcases List.mem_cons.mp hmem with heq | hm
    · rw [← heq]
      simp [lookupA]
    · have hne : p.1 ≠ v := by
        intro hc
        apply hnd.1
        rw [hc]
        exact List.mem_map.mpr ⟨(v, x), hm, rfl⟩
      simp [lookupA, hne, ih hm hnd.2]

theorem values_nodup_of_consistentB {cw : Crossword} {a : Assignment}
    (h : consistentB cw a = true) : (a.map Prod.snd).Nodup := by
  unfold consistentB at h
  rw [Bool.and_eq_true] at h
  have h1 := h.1
  rw [Bool.not_eq_true'] at h1
  have h2 : ¬ ((a.map Prod.snd).dedup.length < a.length) := of_decide_eq_false h1
  have hsub : (a.map Prod.snd).dedup.Sublist (a.map Prod.snd) :=
    List.dedup_sublist _
  have hlen : (a.map Prod.snd).length = a.length := List.length_map _ _
  have heq : (a.map Prod.snd).dedup = a.map Prod.snd := by
    apply hsub.eq_of_length
    have := hsub.length_le
    omega
  rw [← List.dedup_eq_self]
  exact heq

theorem consistentB_items {cw : Crossword} {a : Assignment}
    (h : consistentB cw a = true) :
    ∀ p ∈ a, (p : Variable × Word).2.length = p.1.length
      ∧ ∀ nb ∈ neighborsList cw p.1, ∀ nw, lookupA a nb = some nw →
          ∀ o : Nat × Nat, overlapOf p.1 nb = some o →
            pyIdx p.2 o.1 = pyIdx nw o.2 := by
  unfold consistentB at h
  rw [Bool.and_eq_true] at h
  have h2 := h.2
  rw [List.all_eq_true] at h2
  intro p hp
  have hp2 := h2 p hp
  rw [Bool.and_eq_true] at hp2
  constructor
  · exact of_decide_eq_true hp2.1
  · intro nb hnb nw hnw o ho
    have h3 := (List.all_eq_true.mp hp2.2) nb hnb
    simp only [hnw, ho] at h3
    exact eq_of_beq h3

theorem backtrackFuel_sound (cw : Crossword) :
    ∀ fuel d a res, consistentB cw a = true → (a.map Prod.fst).Nodup →
      (∀ p ∈ a, (p : Variable × Word).1 ∈ cw.vars) →
      backtrackFuel cw d fuel a = some res →
      assignmentCompleteB cw res = true ∧ consistentB cw res = true
      ∧ (res.map Prod.fst).Nodup
      ∧ (∀ p ∈ res, (p : Variable × Word).1 ∈ cw.vars) := by
  intro fuel
  induction fuel with
  | zero =>
    intro d a res _ _ _ h
    cases h
  | succ fuel ih =>
    intro d a res hcons hnd hsub h
    rw [backtrackFuel] at h
    by_cases hc : assignmentCompleteB cw a = true
    · rw [if_pos hc] at h
      cases h
      exact ⟨hc, hcons, hnd, hsub⟩
    · rw [if_neg hc] at h
      cases hsel : selectUnassigned cw d a with
      | none =>
        rw [hsel] at h
        cases h
      | some var =>
        rw [hsel] at h
        obtain ⟨w, hw, hfw⟩ := firstSome_eq_some h
        by_cases hcons2 : consistentB cw (a ++ [(var, w)]) = true
        · rw [if_pos hcons2] at hfw
          obtain ⟨hvmem, hvnone⟩ := selectUnassigned_spec hsel
          have hnd2 : ((a ++ [(var, w)]).map Prod.fst).Nodup := by
            rw [List.map_append]
            rw [List.nodup_append]
            refine ⟨hnd, List.nodup_singleton _, ?_⟩
            intro z hz
            simp only [List.map_cons, List.map_nil, List.mem_singleton]
            intro hzvar
            rw [hzvar] at hz
            exact ((lookupA_eq_none_iff a var).mp hvnone) hz
          have hsub2 : ∀ p ∈ a ++ [(var, w)], (p : Variable × Word).1 ∈ cw.vars := by
            intro p hp
            rcases List.mem_append.mp hp with hpa | hpv
            · exact hsub p hpa
            · rw [List.mem_singleton] at hpv
              rw [hpv]
              exact hvmem
          exact ih d (a ++ [(var, w)]) res hcons2 hnd2 hsub2 hfw
        · rw [if_neg hcons2] at hfw
          cases hfw


/-- **C1** (confirmed).  Any assignment returned by `solve` is globally
consistent: it covers every slot of the Constraint Graph (and only slots of
the graph), all assigned words are pairwise distinct, every assigned word
has its slot's length, and every pair of assigned neighboring slots agrees
at the overlap indices.  `solve` never returns a partial or inconsistent
assignment. -/
theorem solve_sound (cw : Crossword) (res : Assignment)
    (h : solve cw = some res) :
    (∀ v ∈ cw.vars, ∃ w, lookupA res v = some w)
    ∧ (∀ p ∈ res, (p : Variable × Word).1 ∈ cw.vars)
    ∧ (res.map Prod.snd).Nodup
    ∧ (∀ p ∈ res, (p : Variable × Word).2.length = p.1.length)
    ∧ (∀ v1 w1 v2 w2, (v1, w1) ∈ res → (v2, w2) ∈ res →
        v2 ∈ neighborsList cw v1 → ∀ o : Nat × Nat, overlapOf v1 v2 = some o →
        pyIdx w1 o.1 = pyIdx w2 o.2) := by
  have h2 : backtrackFuel cw
      ((ac3 cw (allArcs cw) (enforceNodeConsistency (initDomains cw))).1)
      (cw.vars.length + 1) [] = some res := h
  have hsound := backtrackFuel_sound cw (cw.vars.length + 1)
    ((ac3 cw (allArcs cw) (enforceNodeConsistency (initDomains cw))).1) [] res
    rfl (by simp) (by simp) h2
  obtain ⟨hcomp, hcons, hnd, hsub⟩ := hsound
  refine ⟨?_, hsub, values_nodup_of_consistentB hcons, ?_, ?_⟩
  · intro v hv
    have hiss := (List.all_eq_true.mp hcomp) v hv
    rw [Option.isSome_iff_exists] at hiss
    exact hiss
  · intro p hp
    exact (consistentB_items hcons p hp).1
  · intro v1 w1 v2 w2 h1 hmem2 hnb o ho
    have hlk : lookupA res v2 = some w2 := lookupA_of_mem_nodup hmem2 hnd
    exact (consistentB_items hcons (v1, w1) h1).2 v2 hnb w2 hlk o ho

theorem solveW1_eval : solve cwW1 = some [(vW1, ['C', 'A', 'T'])] := by
  show backtrackFuel cwW1
    ((ac3 cwW1 (allArcs cwW1) (enforceNodeConsistency (initDomains cwW1))).1)
    (cwW1.vars.length + 1) [] = some [(vW1, ['C', 'A', 'T'])]
  rw [show allArcs cwW1 = [] from by decide, ac3_nil]
  decide

/-- Witness for `solve_sound`: `solve` on the `gW1` instance returns the
assignment `{(0,0) across 3 ↦ "CAT"}`, which is complete and has distinct
values. -/
theorem solve_sound_witness :
    solve cwW1 = some [(vW1, ['C', 'A', 'T'])]
    ∧ (∀ v ∈ cwW1.vars, ∃ w, lookupA [(vW1, ['C', 'A', 'T'])] v = some w)
    ∧ (([(vW1, ['C', 'A', 'T'])].map Prod.snd)).Nodup :=
  ⟨solveW1_eval, (solve_sound cwW1 _ solveW1_eval).1,
    (solve_sound cwW1 _ solveW1_eval).2.2.1⟩

/-!  Fuel adequacy: the fuel of `backtrackFuel` is a device of the
embedding only.  Each recursive call assigns a previously unassigned
variable of the puzzle, so the result is the same for every fuel larger
than the number of unassigned variables; `backtrack`'s fuel
`cw.vars.length + 1` is always in that range from `solve`'s entry. -/

theorem filter_length_mono {p p2 : Variable → Bool}
    (himp : ∀ v, p2 v = true → p v = true) :
    ∀ l : List Variable, (l.filter p2).length ≤ (l.filter p).length := by
  intro l
  induction l with
  | nil => simp
  | cons x xs ih =>
    rw [List.filter_cons, List.filter_cons]
    by_cases h2 : p2 x = true
    · rw [if_pos h2, if_pos (himp x h2)]
      simpa using ih
    · rw [if_neg h2]
      by_cases h1 : p x = true
      · rw [if_pos h1]
        simp only [List.length_cons]
        omega
      · rw [if_neg h1]
        exact ih

theorem filter_length_lt {p p2 : Variable → Bool}
    (himp : ∀ v, p2 v = true → p v = true) :
    ∀ l : List Variable, ∀ v0 ∈ l, p v0 = true → p2 v0 = false →
      (l.filter p2).length < (l.filter p).length := by
  intro l
  induction l with
  | nil => intro v0 hv0; cases hv0
  | cons x xs ih =>
    intro v0 hv0 hp hp2
    rw [List.filter_cons, List.filter_cons]
    rcases List.mem_cons.mp hv0 with heq | hm
    · subst heq
      rw [if_pos hp, if_neg (by simp [hp2])]
      have := filter_length_mono himp xs
      simp only [List.length_cons]
      omega
    · have hlt := ih v0 hm hp hp2
      by_cases h2 : p2 x = true
      · rw [if_pos h2, if_pos (himp x h2)]
        simpa using hlt
      · rw [if_neg h2]
        by_cases h1 : p x = true
        · rw [if_pos h1]
          simp only [List.length_cons]
          omega
        · rw [if_neg h1]
          exact hlt

theorem lookupA_append_eq_none_iff {α : Type} (a b : List (Variable × α))
    (v : Variable) :
    lookupA (a ++ b) v = none ↔ lookupA a v = none ∧ lookupA b v = none := by
  rw [lookupA_eq_none_iff, lookupA_eq_none_iff, lookupA_eq_none_iff,
    List.map_append, List.mem_append]
  push_neg
  rfl

theorem unassigned_decreases {cw : Crossword} {a : Assignment} {var : Variable}
    (w : Word) (hvar : var ∈ cw.vars) (hnone : lookupA a var = none) :
    unassignedCount cw (a ++ [(var, w)]) < unassignedCount cw a := by
  apply filter_length_lt ?himp cw.vars var hvar (by simp [hnone]) ?hvar2
  case himp =>
    intro v hv
    rw [decide_eq_true_eq] at hv
    rw [decide_eq_true_eq]
    exact ((lookupA_append_eq_none_iff a [(var, w)] v).mp hv).1
  case hvar2 =>
    rw [decide_eq_false_iff_not]
    rw [lookupA_append_eq_none_iff]
    intro hcon
    have := hcon.2
    simp [lookupA] at this

theorem firstSome_congr {α β : Type} {f g : α → Option β} :
    ∀ l : List α, (∀ x ∈ l, f x = g x) → firstSome f l = firstSome g l := by
  intro l
  induction l with
  | nil => intro _; rfl
  | cons x xs ih =>
    intro h
    rw [firstSome, firstSome, h x (List.mem_cons_self x xs),
      ih fun z hz => h z (List.mem_cons_of_mem x hz)]

theorem backtrackFuel_adequate (cw : Crossword) :
    ∀ fuel fuel2 d a, unassignedCount cw a < fuel →
      unassignedCount cw a < fuel2 →
      backtrackFuel cw d fuel a = backtrackFuel cw d fuel2 a := by
  intro fuel
  induction fuel with
  | zero =>
    intro fuel2 d a h1
    omega
  | succ fuel ih =>
    intro fuel2 d a h1 h2
    cases fuel2 with
    | zero => omega
    | succ fuel2 =>
      rw [backtrackFuel, backtrackFuel]
      by_cases hc : assignmentCompleteB cw a = true
      · rw [if_pos hc, if_pos hc]
      · rw [if_neg hc, if_neg hc]
        cases hsel : selectUnassigned cw d a with
        | none => rfl
        | some var =>
          apply firstSome_congr
          intro w hw
          simp only
          by_cases hcons : consistentB cw (a ++ [(var, w)]) = true
          · rw [if_pos hcons, if_pos hcons]
            obtain ⟨hvmem, hvnone⟩ := selectUnassigned_spec hsel
            have hdec := unassigned_decreases w hvmem hvnone
            exact ih fuel2 d (a ++ [(var, w)]) (by omega) (by omega)
          · rw [if_neg hcons, if_neg hcons]

theorem backtrack_fuel_irrelevant (cw : Crossword) (d : Domains) :
    ∀ fuel, cw.vars.length < fuel →
      backtrackFuel cw d fuel [] = backtrack cw d [] := by
  intro fuel h
  have hcount : unassignedCount cw [] ≤ cw.vars.length :=
    List.length_filter_le _ _
  exact backtrackFuel_adequate cw fuel (cw.vars.length + 1) d []
    (by omega) (by omega)

theorem backtrackS_fst (cw : Crossword) :
    ∀ fuel d a, (backtrackS cw fuel d a).1 = backtrackFuel cw d fuel a := by
  intro fuel
  induction fuel with
  | zero => intro d a; rfl
  | succ fuel ih =>
    intro d a
    rw [backtrackS, backtrackFuel]
    by_cases hc : assignmentCompleteB cw a = true
    · rw [if_pos hc, if_pos hc]
    · rw [if_neg hc, if_neg hc]
      cases hsel : selectUnassigned cw d a with
      | none => rfl
      | some var =>
        show (tryValuesS cw (fun d2 a2 => backtrackS cw fuel d2 a2) a var
            (orderDomainValuesS cw d a var).1 d).1 = _
        rw [tryS_fst cw _ a var fun d2 a2 => backtrackS_domains cw fuel d2 a2]
        apply firstSome_congr
        intro w hw
        by_cases hcons : consistentB cw (a ++ [(var, w)]) = true
        · rw [if_pos hcons]
          simp only [if_pos hcons]
          exact ih d (a ++ [(var, w)])
        · rw [if_neg hcons]
          simp only [if_neg hcons]

/-- **C9** (confirmed).  The search phase never mutates the domain store —
`backtrack` and `order_domain_values`, rendered with the store threaded
through every call, compute the same results as the plain functions while
returning the store exactly as AC-3 left it — and `backtrack` only extends
per-branch copies of its argument: any returned assignment extends the
caller's assignment, which itself is never written. -/
theorem search_no_mutation (cw : Crossword) :
    (∀ d a var, (orderDomainValuesS cw d a var).2 = d
      ∧ (orderDomainValuesS cw d a var).1 = orderDomainValues cw d a var)
    ∧ (∀ fuel d a, (backtrackS cw fuel d a).2 = d
      ∧ (backtrackS cw fuel d a).1 = backtrackFuel cw d fuel a)
    ∧ (∀ fuel d a res, backtrackFuel cw d fuel a = some res → a <+: res) :=
  ⟨fun _ _ _ => ⟨rfl, rfl⟩,
    fun fuel d a => ⟨backtrackS_domains cw fuel d a, backtrackS_fst cw fuel d a⟩,
    backtrackFuel_prefix cw⟩

/-- Witness for `search_no_mutation`: the search on `cwW1` succeeds from the
empty assignment, which is a prefix of the returned assignment. -/
theorem search_no_mutation_witness :
    backtrackFuel cwW1 (enforceNodeConsistency (initDomains cwW1)) 2 []
        = some [(vW1, ['C', 'A', 'T'])]
    ∧ ([] : Assignment) <+: [(vW1, ['C', 'A', 'T'])] :=
  ⟨by decide, (search_no_mutation cwW1).2.2 2
    (enforceNodeConsistency (initDomains cwW1)) [] _ (by decide)⟩
